import Mathlib

/-!
# EffectCrawler (src/app.js): a shallow embedding and its properties

The crawler is a three-stage pipeline over JSON payloads:
`getAllDrugs` / `processAllDrugs` flatten a catalog into candidate names,
`getPWDrugs` resolves the candidates in waves of five search requests,
`extractEffects` queries the effects of every resolved name and builds the
effect map, and `saveEffects` writes the map to disk.

JavaScript values are embedded as the inductive type `JsVal`; the lodash
helpers and the destructuring / spread forms the source uses are embedded
as total functions on `JsVal`, returning `Except` where the JavaScript form
can throw.  Requests handed to the transport, the points where a wave of
promises is awaited, and file writes are recorded in an explicit event
trace.
-/

namespace EffectCrawler

/-! ## JavaScript values -/

/-- The largest integer a JavaScript number counts exactly
(`Number.MAX_SAFE_INTEGER`), which is also the largest length lodash
accepts. -/
def maxSafeInteger : Nat := 9007199254740991

/-- An integer in the range a JavaScript number counts exactly. -/
structure SafeInt where
  val : Int
  safe : val.natAbs ≤ maxSafeInteger

/-- The number of an index.  (No array, string or array-like object is
long enough for an index to leave the safe range.) -/
def SafeInt.ofIndex (i : Nat) : SafeInt :=
  if h : i ≤ maxSafeInteger then ⟨i, by simpa using h⟩ else ⟨0, by decide⟩

/-- A JavaScript value as the crawler can observe it: the JSON values of a
parsed response body, plus `undefined` (the result of reading a property
that is absent).  An object is the list of its own enumerable properties in
enumeration order, and its prototype is `Object.prototype`; a number is an
integer in the safe range; a string is a string without unpaired
surrogates. -/
inductive JsVal where
  | undefined : JsVal
  | null : JsVal
  | bool (b : Bool) : JsVal
  | num (n : SafeInt) : JsVal
  | str (s : String) : JsVal
  | arr (items : List JsVal) : JsVal
  | obj (props : List (String × JsVal)) : JsVal

/-- An error raised while the crawler runs, tagged by where it comes from:
a failed `assert`, a `TypeError` of the language, or the rejection of a
request by the transport (carrying the rejection reason). -/
inductive Err where
  | assertion (message : String) : Err
  | typeError (message : String) : Err
  | rejected (reason : JsVal) : Err

/-- The `assert(value, message)` of node, on the truthiness of a number. -/
def assertTruthy (n : Nat) (message : String) : Except Err Unit :=
  if n = 0 then .error (.assertion message) else .ok ()

/-- The `assert(value, message)` of node, on a boolean. -/
def assertTrue (b : Bool) (message : String) : Except Err Unit :=
  if b then .ok () else .error (.assertion message)

namespace JsVal

/-- The strings of the code points of `s`, as string iteration yields them. -/
def chars (s : String) : List JsVal :=
  s.data.map fun c => str (String.singleton c)

/-- The one-unit strings `s[0]`, `s[1]`, ... of the UTF-16 code units of
`s`, as indexing yields them: one for a character of the basic plane, two
for any other character.  A half of a surrogate pair, which no string of
the model can hold, is written as the string of U+FFFD; the source only
reads named properties off these values, which are `undefined` on every
string. -/
def units (s : String) : List JsVal :=
  s.data.flatMap fun c =>
    if c.val < 65536 then [str (String.singleton c)]
    else [str (String.singleton (Char.ofNat 65533)), str (String.singleton (Char.ofNat 65533))]

/-- The truthiness of a value. -/
def truthy : JsVal → Bool
  | undefined => false
  | null => false
  | bool b => b
  | num n => decide (n.val ≠ 0)
  | str s => !s.data.isEmpty
  | arr _ => true
  | obj _ => true

/-- The number of an index, as a value. -/
def index (i : Nat) : JsVal :=
  num (SafeInt.ofIndex i)

/-- Whether the value is `undefined` or `null`. -/
def isNullish : JsVal → Bool
  | undefined => true
  | null => true
  | _ => false

/-- The first binding of `key` in a property list. -/
def lookupProp (key : String) : List (String × JsVal) → Option JsVal
  | [] => none
  | (k, v) :: rest => if k = key then some v else lookupProp key rest

/-- Property read `value.key` for a key that is neither an index nor a
builtin property of arrays and strings (`name`, `aliases`, `data`, `query`,
`results`, `fullurl` in the source): the own property of an object,
`undefined` on every other value that can be read from, and a `TypeError`
on `undefined` and `null`. -/
def getProp (value : JsVal) (key : String) : Except Err JsVal :=
  match value with
  | undefined => .error (.typeError ("Cannot read property " ++ key ++ " of undefined"))
  | null => .error (.typeError ("Cannot read property " ++ key ++ " of null"))
  | obj props => .ok ((lookupProp key props).getD undefined)
  | _ => .ok undefined

/-- The elements an iterable yields (array spread and array destructuring):
the items of an array, the code points of a string, and a `TypeError` on
every other value. -/
def iterate : JsVal → Except Err (List JsVal)
  | arr items => .ok items
  | str s => .ok (chars s)
  | _ => .error (.typeError "value is not iterable")

mutual

/-- The `ToString` conversion, used for template strings and property
keys. -/
def toStr : JsVal → String
  | undefined => "undefined"
  | null => "null"
  | bool true => "true"
  | bool false => "false"
  | num n => toString n.val
  | str s => s
  | arr items => joinItems items
  | obj _ => "[object Object]"
termination_by structural v => v

/-- The `Array.prototype.join` with a comma, which `ToString` applies to an
array: nullish items print as the empty string. -/
def joinItems : List JsVal → String
  | [] => ""
  | x :: rest =>
    (match x with
      | undefined => ""
      | null => ""
      | v => toStr v) ++
    (match rest with
      | [] => ""
      | _ => "," ++ joinItems rest)
termination_by structural items => items

end

end JsVal

open JsVal

/-! ## The lodash helpers the source calls -/

/-- The `_.isArray` of lodash. -/
def isArray : JsVal → Bool
  | arr _ => true
  | _ => false

/-- The `isArrayLike` test of lodash on an object, with the length it
finds: the object has a `length` that is a number, an integer, not
negative and not above `MAX_SAFE_INTEGER`. -/
def arrayLikeLength (props : List (String × JsVal)) : Option Nat :=
  match lookupProp "length" props with
  | some (num n) => if 0 ≤ n.val then some n.val.toNat else none
  | _ => none

/-- Whether `_.size(value)` is truthy, that is, not 0; apart from the totals
of the progress bars, the source uses `_.size` as a condition only.  The
size of lodash is the length of an
array, of a string and of an array-like object, the number of own
enumerable properties of any other object, and 0 on every other value. -/
def sizeTruthy : JsVal → Bool
  | arr items => !items.isEmpty
  | str s => !s.data.isEmpty
  | obj props =>
    match arrayLikeLength props with
    | some length => decide (length ≠ 0)
    | none => !props.isEmpty
  | _ => false

/-- The `_.first` of lodash, `(array && array.length) ? array[0] :
undefined`: the first item of a non-empty array, the first unit of a
non-empty string, the property `0` of an object whose `length` is truthy,
and `undefined` otherwise. -/
def first : JsVal → JsVal
  | arr (x :: _) => x
  | str s => (units s).headD undefined
  | obj props =>
    if truthy ((lookupProp "length" props).getD undefined) then
      (lookupProp "0" props).getD undefined
    else undefined
  | _ => undefined

/-- The `_.isEmpty` of lodash: arrays and strings are empty when their
length is 0, objects when they have no own enumerable property, and every
other value is empty. -/
def isEmpty : JsVal → Bool
  | arr items => items.isEmpty
  | str s => s.data.isEmpty
  | obj props => props.isEmpty
  | _ => true

/-- The `_.has(object, key)` of lodash for a single key: whether `key` is
an own property of an object; false on `undefined`, `null` and on the
values that have no such own property. -/
def has (value : JsVal) (key : String) : Bool :=
  match value with
  | obj props => (lookupProp key props).isSome
  | _ => false

/-- The visits of `_.each(collection, iteratee)`, as the list of
`(value, key)` pairs handed to the iteratee: the items of an array with
their indices, the units of a string with their indices, for an array-like
object the indices below its `length` with `collection[index]`, and for any
other object each own key with `collection[key]`; nothing on any other
value.  (`_.each` stops early only when the iteratee returns `false`, which
neither iteratee of the source does.) -/
def eachEntries : JsVal → List (JsVal × JsVal)
  | arr items => items.enum.map fun iv => (iv.2, index iv.1)
  | str s => (units s).enum.map fun iv => (iv.2, index iv.1)
  | obj props =>
    match arrayLikeLength props with
    | some length =>
      (List.range length).map fun i => ((lookupProp (toString i) props).getD undefined, index i)
    | none => props.map fun kv => ((lookupProp kv.1 props).getD undefined, str kv.1)
  | _ => []

/-- The `_.chunk(array, size)` loop of lodash: slices of `size` items are
taken from the front while items remain. -/
def chunkLoop {α : Type} (size : Nat) : Nat → List α → List (List α)
  | 0, _ => []
  | _ + 1, [] => []
  | fuel + 1, x :: rest => (x :: rest).take size :: chunkLoop size fuel ((x :: rest).drop size)

/-- The `_.chunk(array, size)` of lodash: empty when the array is empty or
`size < 1`, otherwise consecutive slices of `size` items, the last one
holding what remains.  The loop runs at most once per item. -/
def chunk {α : Type} (array : List α) (size : Nat) : List (List α) :=
  if array.length = 0 ∨ size < 1 then [] else chunkLoop size array.length array

/-! ## Stage 1: the candidate names -/

/-- The iteratee of `processAllDrugs`:
`({name, aliases = []}) => drugNames.push(name, ...aliases)`.
Destructuring throws on a nullish entry, the default applies to an
`undefined` `aliases` only, and the spread throws on a non-iterable. -/
def pushEntry (drugNames : List JsVal) (entry : JsVal) : Except Err (List JsVal) := do
  let name ← getProp entry "name"
  let aliasesField ← getProp entry "aliases"
  let aliases := match aliasesField with
    | undefined => arr []
    | v => v
  let spread ← iterate aliases
  pure (drugNames ++ name :: spread)

/-- The `processAllDrugs(drugCache)` of the source: every entry visited by
`_.each` pushes its name and its aliases, and `this.drugNames` becomes
`drugNames.slice(0, 150)`.  The result is the new `this.drugNames`. -/
def processAllDrugs (drugCache : JsVal) : Except Err (List JsVal) := do
  let drugNames ← (eachEntries drugCache).foldlM (fun acc vk => pushEntry acc vk.1) []
  pure (drugNames.take 150)

/-! ## Catalogs as the specification types them -/

/-- A catalog entry: a name and an optional list of aliases. -/
structure CatalogEntry where
  name : String
  aliases : Option (List String)

/-- The JSON object of a catalog entry; an absent `aliases` is no property. -/
def CatalogEntry.toJs (e : CatalogEntry) : JsVal :=
  match e.aliases with
  | none => obj [("name", str e.name)]
  | some al => obj [("name", str e.name), ("aliases", arr (al.map str))]

/-- The JSON array of a catalog. -/
def catalogToJs (catalog : List CatalogEntry) : JsVal :=
  arr (catalog.map CatalogEntry.toJs)

/-- The names an entry contributes: its name, then its aliases in order. -/
def CatalogEntry.names (e : CatalogEntry) : List String :=
  e.name :: e.aliases.getD []

/-- The flattened catalog: the names of every entry, in input order. -/
def flattenCatalog (catalog : List CatalogEntry) : List String :=
  catalog.flatMap CatalogEntry.names

/-! ## Requests, waves and the event trace -/

/-- What the crawler does to the outside world, in program order. -/
inductive Event where
  /-- The catalog request was handed to the transport. -/
  | catalogRequested : Event
  /-- A search request for a candidate name was handed to the transport. -/
  | lookupRequested (name : JsVal) : Event
  /-- An effect query was handed to the transport, with its URL. -/
  | effectsRequested (url : String) : Event
  /-- The awaited promise (a single request, or `Promise.all` of a wave)
  fulfilled: every request of the wave has completed. -/
  | settled : Event
  /-- The awaited promise rejected. -/
  | failed : Event
  /-- The call `fs.writeFileSync(path, JSON.stringify(value))`. -/
  | fileWritten (path : String) (value : JsVal) : Event

/-- A generator run to its end: the events it caused and its result. -/
structure Outcome (α : Type) where
  trace : List Event
  result : Except Err α

/-- Sequencing of generators (`yield*`): the second runs on the result of
the first, and does not run when the first throws. -/
def Outcome.andThen {α β : Type} (first : Outcome α) (next : α → Outcome β) : Outcome β :=
  match first.result with
  | .error e => ⟨first.trace, .error e⟩
  | .ok a => ⟨first.trace ++ (next a).trace, (next a).result⟩

/-- The transport the crawler is run against: the response body (or the
rejection reason) of the catalog request, of the search request for a
name, and of the effect query for the text interpolated into its URL. -/
structure Collaborators where
  allDrugs : Except JsVal JsVal
  search : JsVal → Except JsVal JsVal
  ask : String → Except JsVal JsVal

/-- A request promise: the transport result, rejections tagged. -/
def requested (response : Except JsVal JsVal) : Except Err JsVal :=
  match response with
  | .error reason => .error (.rejected reason)
  | .ok body => .ok body

/-- The `Promise.all` of bluebird: the results in the order of the
promises when every promise fulfils, a rejection otherwise.  (When several
promises of a wave reject, the rejection reported is the one listed
first.) -/
def promiseAll {α : Type} : List (Except Err α) → Except Err (List α)
  | [] => .ok []
  | .error e :: _ => .error e
  | .ok v :: rest =>
    match promiseAll rest with
    | .error e => .error e
    | .ok vs => .ok (v :: vs)

/-- The number of requests in flight after the events of a trace, given
the number in flight before: a request adds one, a fulfilled wave leaves
none, and a rejection leaves the others of the wave in flight. -/
def inFlight : Nat → List Event → Nat
  | n, [] => n
  | n, .catalogRequested :: rest => inFlight (n + 1) rest
  | n, .lookupRequested _ :: rest => inFlight (n + 1) rest
  | n, .effectsRequested _ :: rest => inFlight (n + 1) rest
  | _, .settled :: rest => inFlight 0 rest
  | n, .failed :: rest => inFlight n rest
  | n, .fileWritten _ _ :: rest => inFlight n rest

/-- The file writes of a trace, in order: the path and the value whose
serialization was written. -/
def writes : List Event → List (String × JsVal)
  | [] => []
  | .fileWritten path value :: rest => (path, value) :: writes rest
  | _ :: rest => writes rest

/-! ## Stage 1, continued: fetching and validating the catalog -/

/-- The body of `getAllDrugs` after the response arrived: the two asserts
on `body.data`, then `processAllDrugs(_.first(body.data))`. -/
def validateAllDrugs (body : JsVal) : Except Err (List JsVal) := do
  let data ← getProp body "data"
  assertTrue (isArray data) "Tripsit allDrugs list should be an array"
  assertTrue (sizeTruthy data) "Tripsit allDrugs list should not be empty"
  let drugCache := first data
  processAllDrugs drugCache

/-- The `getAllDrugs()` of the source; the result is the new
`this.drugNames`. -/
def getAllDrugs (allDrugs : Except JsVal JsVal) : Outcome (List JsVal) :=
  match requested allDrugs with
  | .error e => ⟨[.catalogRequested, .failed], .error e⟩
  | .ok body => ⟨[.catalogRequested, .settled], validateAllDrugs body⟩

/-! ## Stage 2: resolving the candidates -/

/-- The callback of `pwMapping.forEach`:
`([term, match]) => _.size(match) && pwNames.push(term)`.
Array destructuring throws on a body that is not iterable and yields
`undefined` for a missing position. -/
def collectMatch (pwNames : List JsVal) (body : JsVal) : Except Err (List JsVal) := do
  let parts ← iterate body
  let term := parts.getD 0 undefined
  let payload := parts.getD 1 undefined
  pure (if sizeTruthy payload then pwNames ++ [term] else pwNames)

/-- The `for` loop of `getPWDrugs` over the chunks: every name of the chunk
is requested, the wave is awaited with `Promise.all`, and the bodies are
collected in the order of the requests; then the next chunk starts. -/
def resolveChunks (search : JsVal → Except JsVal JsVal) :
    List (List JsVal) → List JsVal → Outcome (List JsVal)
  | [], pwNames => ⟨[], .ok pwNames⟩
  | chunk :: rest, pwNames =>
    let requests := chunk.map Event.lookupRequested
    match promiseAll (chunk.map fun name => requested (search name)) with
    | .error e => ⟨requests ++ [.failed], .error e⟩
    | .ok pwMapping =>
      match pwMapping.foldlM collectMatch pwNames with
      | .error e => ⟨requests ++ [.settled], .error e⟩
      | .ok pwNames2 =>
        ⟨requests ++ .settled :: (resolveChunks search rest pwNames2).trace,
          (resolveChunks search rest pwNames2).result⟩

/-- The `getPWDrugs()` of the source on `this.drugNames`; the result is
`this.matchingDrugNames`. -/
def getPWDrugs (search : JsVal → Except JsVal JsVal) (drugNames : List JsVal) :
    Outcome (List JsVal) :=
  match assertTruthy drugNames.length "drugNames are not set or empty" with
  | .error e => ⟨[], .error e⟩
  | .ok _ => resolveChunks search (chunk drugNames 5) []

/-- Whether the search response for a name reports a match, in the words
of the specification: the lookup succeeded and its match payload (the
second position of the body) has a size that is not 0. -/
def matchedBy (search : JsVal → Except JsVal JsVal) (name : JsVal) : Bool :=
  match search name with
  | .ok (arr (_ :: payload :: _)) => sizeTruthy payload
  | _ => false

/-- The events of one wave that fulfils: its requests in order, then the
point where the whole wave has been awaited. -/
def waveTrace (chunk : List JsVal) : List Event :=
  chunk.map Event.lookupRequested ++ [Event.settled]

/-! ## Stage 3: the effect map -/

/-- The definition of an own property by an assignment: an existing
property is overwritten in place, a new one is added.  (The list keeps the
order of insertion; that the engine enumerates index-like keys first is
outside the model.) -/
def setProp (key : String) (value : JsVal) : List (String × JsVal) → List (String × JsVal)
  | [] => [(key, value)]
  | (k, v) :: rest => if k = key then (k, value) :: rest else (k, v) :: setProp key value rest

/-- What the assignment `object["__proto__"] = value` meets first on the
prototype chain of an object that has no own property of that name. -/
inductive ProtoChain where
  /-- The accessor of `Object.prototype`: the assignment runs its setter. -/
  | accessor : ProtoChain
  /-- A data property of that name on a prototype, or the end of a chain
  that does not reach `Object.prototype`: the assignment defines an own
  property. -/
  | data : ProtoChain

/-- An object created by `{}` and filled by assignments: its own
properties, and what its prototype chain holds for the key `__proto__`. -/
structure Built where
  props : List (String × JsVal)
  chain : ProtoChain

/-- The object `{}`: no own property, and the prototype `Object.prototype`. -/
def Built.empty : Built :=
  ⟨[], .accessor⟩

/-- The chain an object has once the setter of `__proto__` has made a
response value its prototype: an object with an own `__proto__` gives a
data property, any other object or array leads on to `Object.prototype`,
and `null` ends the chain.  The setter ignores every other value. -/
def chainThrough : JsVal → Option ProtoChain
  | obj props => some (if (lookupProp "__proto__" props).isSome then .data else .accessor)
  | arr _ => some .accessor
  | null => some .data
  | _ => none

/-- The chain an object has once the setter of `__proto__` has made a built
object its prototype. -/
def Built.asPrototype (object : Built) : ProtoChain :=
  if (lookupProp "__proto__" object.props).isSome then .data else object.chain

/-- The assignment `object[key] = value` on a built object; `through` is
the chain `value` gives as a prototype.  Every key but `__proto__` defines
an own property.  The key `__proto__` defines an own property when the
object has one already or its chain holds a data property of that name;
otherwise it runs the setter of `Object.prototype`, which replaces the
prototype by an object or `null` and defines no property. -/
def assign (key : String) (value : JsVal) (through : Option ProtoChain) (object : Built) :
    Built :=
  if key = "__proto__" ∧ (lookupProp key object.props).isSome = false then
    match object.chain with
    | .data => { object with props := setProp key value object.props }
    | .accessor =>
      match through with
      | some chain => { object with chain := chain }
      | none => object
  else { object with props := setProp key value object.props }

/-- The prefix of the URL of an effect query. -/
def askApiPrefix : String :=
  "https://psychonautwiki.org/w/api.php?action=ask&format=json&query="

/-- The template string of this URL, without the fixed prefix. -/
def askQuery (drugName : JsVal) : String :=
  "[[-Effect::" ++ toStr drugName ++ "]]"

/-- The promise of one effect query:
`request(url).spread((res, {query}) => [drugName, query])`; destructuring a
nullish body rejects the promise. -/
def effectsPromise (ask : String → Except JsVal JsVal) (drugName : JsVal) :
    Except Err (JsVal × JsVal) := do
  let body ← requested (ask (toStr drugName))
  let query ← getProp body "query"
  pure (drugName, query)

/-- The iteratee of `_.each(query.results, ...)`:
`({fullurl}, effectName) => { effects[effectName] = fullurl }`. -/
def addEffect (effects : Built) (visit : JsVal × JsVal) : Except Err Built := do
  let fullurl ← getProp visit.1 "fullurl"
  pure (assign (toStr visit.2) fullurl (chainThrough fullurl) effects)

/-- The callback of `pwResolveMap.forEach` on `[drugName, query]`: nothing
when `results` is absent or empty, otherwise the effects of the name are
built and stored under the name. -/
def addDrug (effectMap : Built) (resolved : JsVal × JsVal) : Except Err Built :=
  if has resolved.2 "results" then do
    let results ← getProp resolved.2 "results"
    if isEmpty results then pure effectMap
    else do
      let effects ← (eachEntries results).foldlM addEffect Built.empty
      pure (assign (toStr resolved.1) (obj effects.props) (some effects.asPrototype) effectMap)
  else pure effectMap

/-- The body of `pwResolveMap.forEach(...)` on the empty `effectMap`; the
result is the own properties of the map. -/
def buildEffectMap (pwResolveMap : List (JsVal × JsVal)) : Except Err (List (String × JsVal)) :=
  match pwResolveMap.foldlM addDrug Built.empty with
  | .error e => .error e
  | .ok effectMap => .ok effectMap.props

/-- The `extractEffects()` of the source on `this.matchingDrugNames`: all
queries are requested at once and awaited together; the result is the own
properties of `this.effectMap`. -/
def extractEffects (ask : String → Except JsVal JsVal) (matchingDrugNames : List JsVal) :
    Outcome (List (String × JsVal)) :=
  let requests := matchingDrugNames.map fun drugName =>
    Event.effectsRequested (askApiPrefix ++ askQuery drugName)
  match promiseAll (matchingDrugNames.map (effectsPromise ask)) with
  | .error e => ⟨requests ++ [.failed], .error e⟩
  | .ok pwResolveMap => ⟨requests ++ [.settled], buildEffectMap pwResolveMap⟩

/-- The `results` field of a query value: the own property of an object,
`undefined` when the query has none. -/
def resultsOf (query : JsVal) : JsVal :=
  match query with
  | obj props => (lookupProp "results" props).getD undefined
  | _ => undefined

/-- Whether a query value has effects, in the words of the specification:
its `results` field is present and non-empty. -/
def hasEffects (query : JsVal) : Bool :=
  has query "results" && !isEmpty (resultsOf query)

/-- The `query` field of the response to the effect query of a name,
`undefined` when the request or the read fails. -/
def queryOf (ask : String → Except JsVal JsVal) (name : String) : JsVal :=
  match ask name with
  | .ok body =>
    match getProp body "query" with
    | .ok query => query
    | .error _ => undefined
  | .error _ => undefined

/-! ## Persistence and the pipeline -/

/-- The `saveEffects(targetPath)` of the source on `this.effectMap`. -/
def saveEffects (targetPath : String) (effectMap : List (String × JsVal)) : Outcome Unit :=
  ⟨[.fileWritten targetPath (obj effectMap)], .ok ()⟩

/-- The `EffectCrawler.run(targetPath, {fs, request})` of the source. -/
def run (targetPath : String) (world : Collaborators) : Outcome Unit :=
  (getAllDrugs world.allDrugs).andThen fun drugNames =>
  (getPWDrugs world.search drugNames).andThen fun matchingDrugNames =>
  (extractEffects world.ask matchingDrugNames).andThen fun effectMap =>
  saveEffects targetPath effectMap

/-- The path the program writes to. -/
def outputFile : String := "./elist.json"

/-! ## The scenarios of the specification -/

/-- Scenario 1: the catalog with entry "A" (alias "A1") and entry "B". -/
def demoCatalog : List CatalogEntry :=
  [⟨"A", some ["A1"]⟩, ⟨"B", some []⟩]

/-- Scenario 2: the match payload of a name, non-empty for "A" and "B"
only. -/
def demoPayload : JsVal → JsVal
  | str s => if s = "A" ∨ s = "B" then arr [str s] else arr []
  | _ => arr []

/-- Scenario 2: a search transport that echoes the name it is queried
with. -/
def demoSearch (name : JsVal) : Except JsVal JsVal :=
  .ok (arr [name, demoPayload name])

/-- Scenario 3: the effect queries, with results for "A" only. -/
def demoAsk (name : String) : Except JsVal JsVal :=
  if name = "A" then
    .ok (obj [("query",
      obj [("results", obj [("euphoria", obj [("fullurl", str "http://x/euphoria")])])])])
  else .ok (obj [("query", obj [])])

/-- The three scenarios as one transport. -/
def demoWorld : Collaborators :=
  { allDrugs := .ok (obj [("data", arr [catalogToJs demoCatalog])])
    search := demoSearch
    ask := demoAsk }

/-- The transport of `demoWorld`, except that the search for "A1" is
rejected. -/
def demoFailingWorld : Collaborators :=
  { allDrugs := demoWorld.allDrugs
    search := fun name =>
      match name with
      | str s => if s = "A1" then .error (str "ETIMEDOUT") else demoSearch name
      | _ => demoSearch name
    ask := demoAsk }

/-- Effect queries that answer every name with the result "euphoria". -/
def demoEuphoriaAsk (_ : String) : Except JsVal JsVal :=
  .ok (obj [("query",
    obj [("results", obj [("euphoria", obj [("fullurl", str "http://x/euphoria")])])])])

/-- The results of `demoProtoEffectAsk`: an effect named `__proto__` and
the effect "euphoria". -/
def demoProtoResults : List (String × JsVal) :=
  [("__proto__", obj [("fullurl", str "http://x/proto")]),
    ("euphoria", obj [("fullurl", str "http://x/euphoria")])]

/-- Effect queries that answer every name with `demoProtoResults`. -/
def demoProtoEffectAsk (_ : String) : Except JsVal JsVal :=
  .ok (obj [("query", obj [("results", obj demoProtoResults)])])

/-- A response whose catalog, the first item of `data`, is the empty
sequence. -/
def demoEmptyCatalogBody : JsVal :=
  obj [("data", arr [arr []])]

/-- A response whose catalog, the first item of `data`, is not a sequence
but an object keyed by drug, as the catalog service delivers it. -/
def demoKeyedCatalogBody : JsVal :=
  obj [("data", arr [obj [("lsd", obj [("name", str "LSD"), ("aliases", arr [str "acid"])])]])]

/-! ## Stage 1: proofs -/

theorem foldlM_enumFrom_map {β : Type} (f : β → JsVal → Except Err β) (items : List JsVal) :
    ∀ (start : Nat) (acc : β),
      ((items.enumFrom start).map fun iv => (iv.2, index iv.1)).foldlM
          (fun acc (vk : JsVal × JsVal) => f acc vk.1) acc
        = items.foldlM f acc := by
  induction items with
  | nil => intro start acc; rfl
  | cons x rest ih =>
    intro start acc
    simp only [List.enumFrom, List.map_cons, List.foldlM_cons]
    cases h : f acc x with
    | error e => rfl
    | ok acc2 => exact ih (start + 1) acc2

theorem foldlM_eachEntries_arr {β : Type} (f : β → JsVal → Except Err β) (items : List JsVal)
    (acc : β) :
    (eachEntries (arr items)).foldlM (fun acc (vk : JsVal × JsVal) => f acc vk.1) acc
      = items.foldlM f acc := by
  simp only [eachEntries, List.enum]
  exact foldlM_enumFrom_map f items 0 acc

theorem pushEntry_toJs (acc : List JsVal) (e : CatalogEntry) :
    pushEntry acc e.toJs = .ok (acc ++ e.names.map str) := by
  obtain ⟨name, aliases⟩ := e
  cases aliases with
  | none => rfl
  | some al => rfl

theorem foldlM_pushEntry_catalog (catalog : List CatalogEntry) :
    ∀ acc : List JsVal,
      (catalog.map CatalogEntry.toJs).foldlM pushEntry acc
        = .ok (acc ++ (flattenCatalog catalog).map str) := by
  induction catalog with
  | nil => intro acc; simp [flattenCatalog]; rfl
  | cons e rest ih =>
    intro acc
    simp only [List.map_cons, List.foldlM_cons, pushEntry_toJs]
    show (rest.map CatalogEntry.toJs).foldlM pushEntry (acc ++ e.names.map str) = _
    rw [ih]
    simp [flattenCatalog, List.flatMap_cons, List.append_assoc]

theorem processAllDrugs_catalog (catalog : List CatalogEntry) :
    processAllDrugs (catalogToJs catalog)
      = .ok (((flattenCatalog catalog).take 150).map str) := by
  unfold processAllDrugs catalogToJs
  rw [foldlM_eachEntries_arr, foldlM_pushEntry_catalog]
  simp [List.map_take]

theorem length_flattenCatalog (catalog : List CatalogEntry) :
    (flattenCatalog catalog).length
      = (catalog.map fun e => 1 + (e.aliases.getD []).length).sum := by
  induction catalog with
  | nil => rfl
  | cons e rest ih =>
    simp only [flattenCatalog, List.flatMap_cons, List.length_append, List.map_cons,
      List.sum_cons] at ih ⊢
    rw [ih]
    simp [CatalogEntry.names]
    omega

/-! ## Stage 2: proofs -/

theorem chunkLoop_flatten {α : Type} (size : Nat) (hsize : 1 ≤ size) :
    ∀ (fuel : Nat) (l : List α), l.length ≤ fuel → (chunkLoop size fuel l).flatten = l := by
  intro fuel
  induction fuel with
  | zero =>
    intro l hl
    have : l = [] := List.length_eq_zero.mp (Nat.le_zero.mp hl)
    subst this
    rfl
  | succ fuel ih =>
    intro l hl
    cases l with
    | nil => rfl
    | cons x rest =>
      simp only [chunkLoop, List.flatten_cons]
      rw [ih]
      · exact List.take_append_drop size (x :: rest)
      · have h1 : (List.drop size (x :: rest)).length = (x :: rest).length - size :=
          List.length_drop size (x :: rest)
        have h2 : (x :: rest).length = rest.length + 1 := List.length_cons x rest
        omega

theorem chunk_flatten {α : Type} (l : List α) (size : Nat) (hsize : 1 ≤ size) :
    (chunk l size).flatten = l := by
  unfold chunk
  split
  · rename_i h
    rcases h with h | h
    · rw [List.length_eq_zero.mp h]; rfl
    · omega
  · exact chunkLoop_flatten size hsize l.length l (Nat.le_refl _)

theorem chunkLoop_length_le {α : Type} (size : Nat) (hsize : 1 ≤ size) :
    ∀ (fuel : Nat) (l : List α), ∀ c ∈ chunkLoop size fuel l, 1 ≤ c.length ∧ c.length ≤ size := by
  intro fuel
  induction fuel with
  | zero => intro l c hc; simp [chunkLoop] at hc
  | succ fuel ih =>
    intro l c hc
    cases l with
    | nil => simp [chunkLoop] at hc
    | cons x rest =>
      simp only [chunkLoop, List.mem_cons] at hc
      rcases hc with hc | hc
      · subst hc
        simp only [List.length_take, List.length_cons]
        omega
      · exact ih _ c hc

theorem chunkLoop_dropLast_length {α : Type} (size : Nat) (hsize : 1 ≤ size) :
    ∀ (fuel : Nat) (l : List α), l.length ≤ fuel →
      ∀ c ∈ (chunkLoop size fuel l).dropLast, c.length = size := by
  intro fuel
  induction fuel with
  | zero => intro l _ c hc; simp [chunkLoop] at hc
  | succ fuel ih =>
    intro l hl c hc
    cases l with
    | nil => simp [chunkLoop] at hc
    | cons x rest =>
      simp only [chunkLoop] at hc
      cases hrest : chunkLoop size fuel (List.drop size (x :: rest)) with
      | nil => rw [hrest] at hc; simp at hc
      | cons c2 more =>
        rw [hrest, List.dropLast_cons₂, List.mem_cons] at hc
        have h1 : (List.drop size (x :: rest)).length = (x :: rest).length - size :=
          List.length_drop size (x :: rest)
        have h2 : (x :: rest).length = rest.length + 1 := List.length_cons x rest
        rcases hc with hc | hc
        · subst hc
          have hne : List.drop size (x :: rest) ≠ [] := by
            intro h0
            rw [h0] at hrest
            cases fuel <;> simp [chunkLoop] at hrest
          have : size < (x :: rest).length := by
            by_contra hcon
            exact hne (List.drop_eq_nil_of_le (Nat.le_of_not_lt hcon))
          simp only [List.length_take]
          omega
        · have hlen : (List.drop size (x :: rest)).length ≤ fuel := by omega
          have := ih _ hlen c
          rw [hrest] at this
          exact this hc

theorem chunk_parts {α : Type} (l : List α) (size : Nat) (hsize : 1 ≤ size) :
    (∀ c ∈ chunk l size, 1 ≤ c.length ∧ c.length ≤ size) ∧
      (∀ c ∈ (chunk l size).dropLast, c.length = size) := by
  unfold chunk
  split
  · simp
  · exact ⟨chunkLoop_length_le size hsize _ l,
      chunkLoop_dropLast_length size hsize _ l (Nat.le_refl _)⟩

theorem promiseAll_ok {α β : Type} (f : α → Except Err β) :
    ∀ (l : List α) (vs : List β), promiseAll (l.map f) = .ok vs →
      List.Forall₂ (fun a v => f a = .ok v) l vs := by
  intro l
  induction l with
  | nil =>
    intro vs h
    simp only [List.map_nil, promiseAll, Except.ok.injEq] at h
    subst h
    exact List.Forall₂.nil
  | cons a rest ih =>
    intro vs h
    simp only [List.map_cons] at h
    cases hfa : f a with
    | error e => rw [hfa] at h; simp [promiseAll] at h
    | ok v =>
      rw [hfa] at h
      simp only [promiseAll] at h
      cases hrest : promiseAll (rest.map f) with
      | error e => rw [hrest] at h; simp at h
      | ok vs2 =>
        rw [hrest] at h
        simp only [Except.ok.injEq] at h
        subst h
        exact List.Forall₂.cons hfa (ih vs2 hrest)

theorem promiseAll_of_forall {α β : Type} (f : α → Except Err β) :
    ∀ (l : List α) (vs : List β), List.Forall₂ (fun a v => f a = .ok v) l vs →
      promiseAll (l.map f) = .ok vs := by
  intro l vs h
  induction h with
  | nil => rfl
  | cons hfa _ ih =>
    simp only [List.map_cons, hfa, promiseAll, ih]

theorem promiseAll_error {α β : Type} (f : α → Except Err β) :
    ∀ (l : List α) (e : Err), promiseAll (l.map f) = .error e → ∃ a ∈ l, f a = .error e := by
  intro l
  induction l with
  | nil => intro e h; simp [promiseAll] at h
  | cons a rest ih =>
    intro e h
    simp only [List.map_cons] at h
    cases hfa : f a with
    | error e2 =>
      rw [hfa] at h
      simp only [promiseAll, Except.error.injEq] at h
      subst h
      exact ⟨a, List.mem_cons_self _ _, hfa⟩
    | ok v =>
      rw [hfa] at h
      simp only [promiseAll] at h
      cases hrest : promiseAll (rest.map f) with
      | error e2 =>
        rw [hrest] at h
        simp only [Except.error.injEq] at h
        subst h
        obtain ⟨b, hb, hfb⟩ := ih e2 hrest
        exact ⟨b, List.mem_cons_of_mem _ hb, hfb⟩
      | ok vs2 => rw [hrest] at h; simp at h

theorem promiseAll_fails {α β : Type} (f : α → Except Err β) :
    ∀ (l : List α) (a : α) (e : Err), a ∈ l → f a = .error e →
      ∃ e2, promiseAll (l.map f) = .error e2 := by
  intro l
  induction l with
  | nil => intro a e ha; simp at ha
  | cons b rest ih =>
    intro a e ha hfa
    simp only [List.map_cons]
    cases hfb : f b with
    | error e2 => exact ⟨e2, rfl⟩
    | ok v =>
      rcases List.mem_cons.mp ha with hab | hmem
      · subst hab; rw [hfa] at hfb; cases hfb
      · obtain ⟨e2, he2⟩ := ih a e hmem hfa
        exact ⟨e2, by simp only [promiseAll, he2]⟩

theorem promiseAll_total {α β : Type} (f : α → Except Err β) :
    ∀ (l : List α), (∀ a ∈ l, ∃ v, f a = .ok v) → ∃ vs, promiseAll (l.map f) = .ok vs := by
  intro l
  induction l with
  | nil => intro _; exact ⟨[], rfl⟩
  | cons a rest ih =>
    intro h
    obtain ⟨v, hv⟩ := h a (List.mem_cons_self _ _)
    obtain ⟨vs, hvs⟩ := ih fun b hb => h b (List.mem_cons_of_mem _ hb)
    exact ⟨v :: vs, by simp only [List.map_cons, hv, promiseAll, hvs]⟩

theorem requested_ok (response : Except JsVal JsVal) (body : JsVal) :
    requested response = .ok body ↔ response = .ok body := by
  cases response <;> simp [requested]

theorem requested_error (response : Except JsVal JsVal) (e : Err) :
    requested response = .error e ↔ ∃ reason, response = .error reason ∧ e = .rejected reason := by
  cases response with
  | error r =>
    simp only [requested, Except.error.injEq]
    constructor
    · intro h; exact ⟨r, rfl, h.symm⟩
    · rintro ⟨r2, h1, h2⟩; rw [h2, h1]
  | ok b => simp [requested]

theorem collectMatch_arr (pwNames : List JsVal) (term payload : JsVal) (extra : List JsVal) :
    collectMatch pwNames (arr (term :: payload :: extra))
      = .ok (if sizeTruthy payload then pwNames ++ [term] else pwNames) := rfl

theorem collectMatch_error (pwNames : List JsVal) (body : JsVal) (e : Err)
    (h : collectMatch pwNames body = .error e) : ∃ msg, e = .typeError msg := by
  cases body <;> simp [collectMatch, iterate, bind, Except.bind, pure, Except.pure] at h <;>
    exact ⟨_, h.symm⟩

theorem collectMatch_total (pwNames : List JsVal) (items : List JsVal) :
    ∃ out, collectMatch pwNames (arr items) = .ok out :=
  ⟨_, rfl⟩

theorem foldlM_collectMatch_error :
    ∀ (bodies : List JsVal) (pwNames : List JsVal) (e : Err),
      bodies.foldlM collectMatch pwNames = .error e → ∃ msg, e = .typeError msg := by
  intro bodies
  induction bodies with
  | nil => intro pwNames e h; simp [pure, Except.pure] at h
  | cons b rest ih =>
    intro pwNames e h
    simp only [List.foldlM_cons] at h
    cases hb : collectMatch pwNames b with
    | error e2 =>
      rw [hb] at h
      simp only [bind, Except.bind, Except.error.injEq] at h
      subst h
      exact collectMatch_error pwNames b e2 hb
    | ok acc2 =>
      rw [hb] at h
      exact ih acc2 e h

theorem foldlM_collectMatch_total (search : JsVal → Except JsVal JsVal) :
    ∀ (l bodies : List JsVal),
      List.Forall₂ (fun n v => requested (search n) = .ok v) l bodies →
      (∀ n ∈ l, ∃ items, search n = .ok (arr items)) →
      ∀ pwNames, ∃ out, bodies.foldlM collectMatch pwNames = .ok out := by
  intro l bodies h
  induction h with
  | nil => intro _ pwNames; exact ⟨pwNames, rfl⟩
  | @cons n v l2 bodies2 hnv _ ih =>
    intro harr pwNames
    obtain ⟨items, hitems⟩ := harr n (List.mem_cons_self _ _)
    have hv : v = arr items := by
      rw [requested_ok, hitems] at hnv
      cases hnv
      rfl
    subst hv
    obtain ⟨acc2, hacc2⟩ := collectMatch_total pwNames items
    obtain ⟨out, hout⟩ := ih (fun m hm => harr m (List.mem_cons_of_mem _ hm)) acc2
    exact ⟨out, by simp only [List.foldlM_cons, hacc2]; exact hout⟩

theorem foldlM_collectMatch_echo (search : JsVal → Except JsVal JsVal)
    (hecho : ∀ n body, search n = .ok body → ∃ payload extra, body = arr (n :: payload :: extra)) :
    ∀ (l bodies : List JsVal),
      List.Forall₂ (fun n v => requested (search n) = .ok v) l bodies →
      ∀ pwNames, bodies.foldlM collectMatch pwNames
        = .ok (pwNames ++ l.filter (matchedBy search)) := by
  intro l bodies h
  induction h with
  | nil => intro pwNames; simp; rfl
  | @cons n v l2 bodies2 hnv _ ih =>
    intro pwNames
    rw [requested_ok] at hnv
    obtain ⟨payload, extra, hbody⟩ := hecho n v hnv
    subst hbody
    simp only [List.foldlM_cons, collectMatch_arr]
    show List.foldlM collectMatch (if sizeTruthy payload then pwNames ++ [n] else pwNames)
      bodies2 = _
    rw [ih]
    have hm : matchedBy search n = sizeTruthy payload := by
      simp only [matchedBy, hnv]
    cases hs : sizeTruthy payload with
    | false =>
      rw [hs] at hm
      simp [List.filter_cons, hm]
    | true =>
      rw [hs] at hm
      simp [List.filter_cons, hm]

theorem resolveChunks_reject (search : JsVal → Except JsVal JsVal) (c : List JsVal)
    (rest : List (List JsVal)) (pwNames : List JsVal) (e : Err)
    (hall : promiseAll (c.map fun name => requested (search name)) = .error e) :
    resolveChunks search (c :: rest) pwNames
      = ⟨c.map Event.lookupRequested ++ [.failed], .error e⟩ := by
  simp only [resolveChunks, hall]

theorem resolveChunks_throw (search : JsVal → Except JsVal JsVal) (c : List JsVal)
    (rest : List (List JsVal)) (pwNames bodies : List JsVal) (e : Err)
    (hall : promiseAll (c.map fun name => requested (search name)) = .ok bodies)
    (hfold : bodies.foldlM collectMatch pwNames = .error e) :
    resolveChunks search (c :: rest) pwNames
      = ⟨c.map Event.lookupRequested ++ [.settled], .error e⟩ := by
  simp only [resolveChunks, hall, hfold]

theorem resolveChunks_next (search : JsVal → Except JsVal JsVal) (c : List JsVal)
    (rest : List (List JsVal)) (pwNames bodies pwNames2 : List JsVal)
    (hall : promiseAll (c.map fun name => requested (search name)) = .ok bodies)
    (hfold : bodies.foldlM collectMatch pwNames = .ok pwNames2) :
    resolveChunks search (c :: rest) pwNames
      = ⟨c.map Event.lookupRequested ++ .settled :: (resolveChunks search rest pwNames2).trace,
          (resolveChunks search rest pwNames2).result⟩ := by
  simp only [resolveChunks, hall, hfold]

theorem resolveChunks_echo (search : JsVal → Except JsVal JsVal)
    (hecho : ∀ n body, search n = .ok body → ∃ payload extra, body = arr (n :: payload :: extra)) :
    ∀ (chunks : List (List JsVal)) (pwNames out : List JsVal),
      (resolveChunks search chunks pwNames).result = .ok out →
      out = pwNames ++ chunks.flatten.filter (matchedBy search) := by
  intro chunks
  induction chunks with
  | nil =>
    intro pwNames out h
    simp only [resolveChunks, Except.ok.injEq] at h
    simp [h]
  | cons c rest ih =>
    intro pwNames out h
    cases hall : promiseAll (c.map fun name => requested (search name)) with
    | error e => rw [resolveChunks_reject search c rest pwNames e hall] at h; cases h
    | ok bodies =>
      have hf := promiseAll_ok (fun name => requested (search name)) c bodies hall
      have hfold := foldlM_collectMatch_echo search hecho c bodies hf pwNames
      rw [resolveChunks_next search c rest pwNames bodies _ hall hfold] at h
      rw [ih _ out h]
      simp [List.append_assoc]

theorem resolveChunks_total (search : JsVal → Except JsVal JsVal) :
    ∀ (chunks : List (List JsVal)),
      (∀ n ∈ chunks.flatten, ∃ items, search n = .ok (arr items)) →
      ∀ pwNames, ∃ out, (resolveChunks search chunks pwNames).result = .ok out := by
  intro chunks
  induction chunks with
  | nil => intro _ pwNames; exact ⟨pwNames, rfl⟩
  | cons c rest ih =>
    intro harr pwNames
    have hc : ∀ n ∈ c, ∃ items, search n = .ok (arr items) := fun n hn =>
      harr n (by simp only [List.flatten_cons, List.mem_append]; exact Or.inl hn)
    have hrest : ∀ n ∈ rest.flatten, ∃ items, search n = .ok (arr items) := fun n hn =>
      harr n (by simp only [List.flatten_cons, List.mem_append]; exact Or.inr hn)
    obtain ⟨bodies, hall⟩ := promiseAll_total (fun name => requested (search name)) c
      (fun n hn => by
        obtain ⟨items, hi⟩ := hc n hn
        exact ⟨arr items, by simp only [hi]; rfl⟩)
    have hf := promiseAll_ok (fun name => requested (search name)) c bodies hall
    obtain ⟨acc2, hacc2⟩ := foldlM_collectMatch_total search c bodies hf hc pwNames
    obtain ⟨out, hout⟩ := ih hrest acc2
    refine ⟨out, ?_⟩
    rw [resolveChunks_next search c rest pwNames bodies acc2 hall hacc2]
    exact hout

theorem resolveChunks_error (search : JsVal → Except JsVal JsVal) :
    ∀ (chunks : List (List JsVal)) (pwNames : List JsVal) (e : Err),
      (resolveChunks search chunks pwNames).result = .error e →
      (∃ n ∈ chunks.flatten, ∃ reason, search n = .error reason ∧ e = .rejected reason) ∨
        ∃ msg, e = .typeError msg := by
  intro chunks
  induction chunks with
  | nil => intro pwNames e h; simp [resolveChunks] at h
  | cons c rest ih =>
    intro pwNames e h
    cases hall : promiseAll (c.map fun name => requested (search name)) with
    | error e2 =>
      rw [resolveChunks_reject search c rest pwNames e2 hall] at h
      simp only [Except.error.injEq] at h
      subst h
      obtain ⟨n, hn, hne⟩ := promiseAll_error _ c e2 hall
      obtain ⟨reason, hr, he⟩ := (requested_error _ _).mp hne
      exact Or.inl ⟨n, by simp only [List.flatten_cons, List.mem_append]; exact Or.inl hn,
        reason, hr, he⟩
    | ok bodies =>
      cases hfold : bodies.foldlM collectMatch pwNames with
      | error e2 =>
        rw [resolveChunks_throw search c rest pwNames bodies e2 hall hfold] at h
        simp only [Except.error.injEq] at h
        subst h
        exact Or.inr (foldlM_collectMatch_error bodies pwNames e2 hfold)
      | ok acc2 =>
        rw [resolveChunks_next search c rest pwNames bodies acc2 hall hfold] at h
        rcases ih acc2 e h with ⟨n, hn, hrest⟩ | hmsg
        · exact Or.inl ⟨n, by simp only [List.flatten_cons, List.mem_append]; exact Or.inr hn,
            hrest⟩
        · exact Or.inr hmsg

theorem resolveChunks_fails (search : JsVal → Except JsVal JsVal) :
    ∀ (chunks : List (List JsVal)) (pwNames : List JsVal) (n : JsVal) (reason : JsVal),
      n ∈ chunks.flatten → search n = .error reason →
      ∃ e, (resolveChunks search chunks pwNames).result = .error e := by
  intro chunks
  induction chunks with
  | nil => intro pwNames n reason hn; simp at hn
  | cons c rest ih =>
    intro pwNames n reason hn hfail
    simp only [List.flatten_cons, List.mem_append] at hn
    cases hall : promiseAll (c.map fun name => requested (search name)) with
    | error e2 => exact ⟨e2, by rw [resolveChunks_reject search c rest pwNames e2 hall]⟩
    | ok bodies =>
      cases hfold : bodies.foldlM collectMatch pwNames with
      | error e2 =>
        exact ⟨e2, by rw [resolveChunks_throw search c rest pwNames bodies e2 hall hfold]⟩
      | ok acc2 =>
        rw [resolveChunks_next search c rest pwNames bodies acc2 hall hfold]
        rcases hn with hn | hn
        · exfalso
          obtain ⟨e2, he2⟩ := promiseAll_fails (fun name => requested (search name)) c n
            (.rejected reason) hn (by simp only [hfail]; rfl)
          rw [he2] at hall
          cases hall
        · exact ih acc2 n reason hn hfail

theorem inFlight_append (a b : List Event) : ∀ n, inFlight n (a ++ b) = inFlight (inFlight n a) b := by
  induction a with
  | nil => intro n; rfl
  | cons ev rest ih =>
    intro n
    cases ev <;> exact ih _

theorem inFlight_requests (l : List JsVal) :
    ∀ n, inFlight n (l.map Event.lookupRequested) = n + l.length := by
  induction l with
  | nil => intro n; rfl
  | cons x rest ih =>
    intro n
    simp only [List.map_cons, inFlight, ih, List.length_cons]
    omega

theorem inFlight_take_requests (l : List JsVal) (k : Nat) :
    inFlight 0 ((l.map Event.lookupRequested).take k) ≤ l.length := by
  rw [← List.map_take, inFlight_requests, List.length_take]
  omega

theorem inFlight_take_failed (m : Nat) (hm : m ≤ 5) (j : Nat) :
    inFlight m (List.take j [Event.failed]) ≤ 5 := by
  cases j with
  | zero => exact hm
  | succ j => simp only [List.take_succ_cons, List.take_nil, inFlight]; exact hm

theorem inFlight_take_settled (m : Nat) (hm : m ≤ 5) (tail : List Event)
    (htail : ∀ j, inFlight 0 (tail.take j) ≤ 5) (j : Nat) :
    inFlight m (List.take j (Event.settled :: tail)) ≤ 5 := by
  cases j with
  | zero => exact hm
  | succ j => simp only [List.take_succ_cons, inFlight]; exact htail j

theorem inFlight_take_wave (c : List JsVal) (hc : c.length ≤ 5) (ending : List Event)
    (hend : ∀ m, m ≤ 5 → ∀ j, inFlight m (ending.take j) ≤ 5) (k : Nat) :
    inFlight 0 ((c.map Event.lookupRequested ++ ending).take k) ≤ 5 := by
  rw [List.take_append_eq_append_take, inFlight_append]
  exact hend _ (Nat.le_trans (inFlight_take_requests c k) hc) _

theorem resolveChunks_inFlight (search : JsVal → Except JsVal JsVal) :
    ∀ (chunks : List (List JsVal)), (∀ c ∈ chunks, c.length ≤ 5) →
      ∀ (pwNames : List JsVal) (k : Nat),
        inFlight 0 ((resolveChunks search chunks pwNames).trace.take k) ≤ 5 := by
  intro chunks
  induction chunks with
  | nil => intro _ pwNames k; simp [resolveChunks, inFlight]
  | cons c rest ih =>
    intro hlen pwNames k
    have hc : c.length ≤ 5 := hlen c (List.mem_cons_self _ _)
    have hrest : ∀ c2 ∈ rest, c2.length ≤ 5 := fun c2 h2 => hlen c2 (List.mem_cons_of_mem _ h2)
    cases hall : promiseAll (c.map fun name => requested (search name)) with
    | error e =>
      rw [resolveChunks_reject search c rest pwNames e hall]
      exact inFlight_take_wave c hc _ (fun m hm j => inFlight_take_failed m hm j) k
    | ok bodies =>
      cases hfold : bodies.foldlM collectMatch pwNames with
      | error e =>
        rw [resolveChunks_throw search c rest pwNames bodies e hall hfold]
        exact inFlight_take_wave c hc _
          (fun m hm j => inFlight_take_settled m hm [] (fun j2 => by simp [inFlight]) j) k
      | ok acc2 =>
        rw [resolveChunks_next search c rest pwNames bodies acc2 hall hfold]
        exact inFlight_take_wave c hc _
          (fun m hm j => inFlight_take_settled m hm _ (fun j2 => ih hrest acc2 j2) j) k

theorem resolveChunks_waves (search : JsVal → Except JsVal JsVal) :
    ∀ (chunks : List (List JsVal)) (pwNames : List JsVal),
      ∃ k, k ≤ chunks.length ∧
        ((resolveChunks search chunks pwNames).trace = (chunks.take k).flatMap waveTrace ∨
          ∃ c, chunks[k]? = some c ∧
            (resolveChunks search chunks pwNames).trace
              = (chunks.take k).flatMap waveTrace
                  ++ (c.map Event.lookupRequested ++ [Event.failed])) := by
  intro chunks
  induction chunks with
  | nil => intro pwNames; exact ⟨0, Nat.le_refl _, Or.inl rfl⟩
  | cons c rest ih =>
    intro pwNames
    cases hall : promiseAll (c.map fun name => requested (search name)) with
    | error e =>
      rw [resolveChunks_reject search c rest pwNames e hall]
      exact ⟨0, Nat.zero_le _, Or.inr ⟨c, by simp, rfl⟩⟩
    | ok bodies =>
      cases hfold : bodies.foldlM collectMatch pwNames with
      | error e =>
        rw [resolveChunks_throw search c rest pwNames bodies e hall hfold]
        refine ⟨1, by simp, Or.inl ?_⟩
        simp [waveTrace]
      | ok acc2 =>
        rw [resolveChunks_next search c rest pwNames bodies acc2 hall hfold]
        obtain ⟨k, hk, hshape⟩ := ih acc2
        refine ⟨k + 1, by simp only [List.length_cons]; omega, ?_⟩
        rcases hshape with h | ⟨c2, hc2, h⟩
        · left
          simp only [h, List.take_succ_cons, List.flatMap_cons, waveTrace, List.append_assoc,
            List.singleton_append]
        · right
          refine ⟨c2, by simpa using hc2, ?_⟩
          simp only [h, List.take_succ_cons, List.flatMap_cons, waveTrace, List.append_assoc,
            List.singleton_append, List.cons_append, List.nil_append]

theorem resolveChunks_trace_ok (search : JsVal → Except JsVal JsVal) :
    ∀ (chunks : List (List JsVal)) (pwNames out : List JsVal),
      (resolveChunks search chunks pwNames).result = .ok out →
      (resolveChunks search chunks pwNames).trace = chunks.flatMap waveTrace := by
  intro chunks
  induction chunks with
  | nil => intro pwNames out _; rfl
  | cons c rest ih =>
    intro pwNames out h
    cases hall : promiseAll (c.map fun name => requested (search name)) with
    | error e => rw [resolveChunks_reject search c rest pwNames e hall] at h; cases h
    | ok bodies =>
      cases hfold : bodies.foldlM collectMatch pwNames with
      | error e => rw [resolveChunks_throw search c rest pwNames bodies e hall hfold] at h; cases h
      | ok acc2 =>
        rw [resolveChunks_next search c rest pwNames bodies acc2 hall hfold] at h ⊢
        simp only [ih acc2 out h, List.flatMap_cons, waveTrace, List.append_assoc,
          List.singleton_append]

theorem getPWDrugs_empty (search : JsVal → Except JsVal JsVal) :
    getPWDrugs search [] = ⟨[], .error (.assertion "drugNames are not set or empty")⟩ := rfl

theorem getPWDrugs_nonempty (search : JsVal → Except JsVal JsVal) (names : List JsVal)
    (h : names ≠ []) : getPWDrugs search names = resolveChunks search (chunk names 5) [] := by
  cases names with
  | nil => exact absurd rfl h
  | cons x rest => rfl

/-! ## Stage 3: proofs -/

theorem lookupProp_setProp_same (k : String) (v : JsVal) :
    ∀ l : List (String × JsVal), lookupProp k (setProp k v l) = some v := by
  intro l
  induction l with
  | nil => simp [setProp, lookupProp]
  | cons kv rest ih =>
    obtain ⟨k2, v2⟩ := kv
    by_cases h : k2 = k
    · simp [setProp, lookupProp, h]
    · simp [setProp, lookupProp, h, ih]

theorem lookupProp_setProp_other (k k2 : String) (v : JsVal) (hne : k ≠ k2) :
    ∀ l : List (String × JsVal), lookupProp k (setProp k2 v l) = lookupProp k l := by
  intro l
  induction l with
  | nil =>
    have : ¬ k2 = k := fun h => hne h.symm
    simp [setProp, lookupProp, this]
  | cons kv rest ih =>
    obtain ⟨k3, v3⟩ := kv
    by_cases h : k3 = k2
    · subst h
      have : ¬ k3 = k := fun h => hne h.symm
      simp [setProp, lookupProp, this]
    · by_cases h3 : k3 = k
      · subst h3
        simp [setProp, lookupProp, h]
      · simp [setProp, lookupProp, h, h3, ih]

theorem lookupProp_isSome_iff_mem (k : String) :
    ∀ l : List (String × JsVal), (lookupProp k l).isSome = true ↔ k ∈ l.map Prod.fst := by
  intro l
  induction l with
  | nil => simp [lookupProp]
  | cons kv rest ih =>
    obtain ⟨k2, v2⟩ := kv
    by_cases h : k2 = k
    · simp [lookupProp, h]
    · have h2 : ¬ k = k2 := fun h3 => h h3.symm
      simp [lookupProp, h, h2, ih]

theorem getProp_total (v : JsVal) (key : String) (h : isNullish v = false) :
    ∃ out, getProp v key = .ok out := by
  cases v <;> simp [isNullish] at h <;> exact ⟨_, rfl⟩

theorem toStr_str (s : String) : toStr (str s) = s := by
  simp [toStr]

theorem lookupProp_assign_same (k : String) (v : JsVal) (through : Option ProtoChain)
    (object : Built) (hk : k ≠ "__proto__") :
    lookupProp k (assign k v through object).props = some v := by
  simp only [assign, hk, false_and, if_false]
  exact lookupProp_setProp_same k v object.props

theorem lookupProp_assign_other (k key : String) (v : JsVal) (through : Option ProtoChain)
    (object : Built) (hne : k ≠ key) :
    lookupProp k (assign key v through object).props = lookupProp k object.props := by
  unfold assign
  split
  · cases object.chain with
    | data => exact lookupProp_setProp_other k key v hne object.props
    | accessor => cases through <;> rfl
  · exact lookupProp_setProp_other k key v hne object.props

theorem addDrug_skip (effectMap : Built) (drugName query : JsVal)
    (h : hasEffects query = false) : addDrug effectMap (drugName, query) = .ok effectMap := by
  cases query <;> try rfl
  rename_i props
  simp only [hasEffects, has, resultsOf, Bool.and_eq_false_iff] at h
  simp only [addDrug, has, getProp, bind, Except.bind, pure, Except.pure]
  rcases h with h | h
  · simp [h]
  · simp only [Bool.not_eq_false', Bool.not_eq_eq_eq_not, Bool.not_false] at h
    simp [h]

theorem addDrug_store (effectMap : Built) (drugName query : JsVal)
    (h : hasEffects query = true) :
    addDrug effectMap (drugName, query)
      = match (eachEntries (resultsOf query)).foldlM addEffect Built.empty with
        | .error e => .error e
        | .ok effects =>
          .ok (assign (toStr drugName) (obj effects.props) (some effects.asPrototype)
            effectMap) := by
  cases query <;> try (simp [hasEffects, has] at h)
  rename_i props
  simp only [hasEffects, has, resultsOf, Bool.and_eq_true] at h
  simp only [addDrug, has, getProp, bind, Except.bind, pure, Except.pure, resultsOf, h.1]
  have h2 : isEmpty ((lookupProp "results" props).getD undefined) = false := by simpa using h.2
  simp only [h2]
  cases List.foldlM addEffect Built.empty
      (eachEntries ((lookupProp "results" props).getD undefined)) <;>
    simp

theorem addDrug_cases (effectMap out : Built) (drugName query : JsVal)
    (h : addDrug effectMap (drugName, query) = .ok out) :
    (hasEffects query = false ∧ out = effectMap) ∨
      (hasEffects query = true ∧ ∃ effects,
        (eachEntries (resultsOf query)).foldlM addEffect Built.empty = .ok effects ∧
        out = assign (toStr drugName) (obj effects.props) (some effects.asPrototype)
          effectMap) := by
  cases hq : hasEffects query with
  | false =>
    rw [addDrug_skip effectMap drugName query hq] at h
    exact Or.inl ⟨rfl, by cases h; rfl⟩
  | true =>
    rw [addDrug_store effectMap drugName query hq] at h
    cases hfold : (eachEntries (resultsOf query)).foldlM addEffect Built.empty with
    | error e => rw [hfold] at h; cases h
    | ok effects =>
      rw [hfold] at h
      exact Or.inr ⟨rfl, effects, rfl, by cases h; rfl⟩

theorem foldlM_addDrug_keys (k : String) (hk : k ≠ "__proto__") :
    ∀ (pairs : List (JsVal × JsVal)) (acc out : Built),
      pairs.foldlM addDrug acc = .ok out →
      ((lookupProp k out.props).isSome = true ↔
        ((lookupProp k acc.props).isSome = true ∨
          ∃ p ∈ pairs, toStr p.1 = k ∧ hasEffects p.2 = true)) := by
  intro pairs
  induction pairs with
  | nil =>
    intro acc out h
    simp only [List.foldlM_nil, pure, Except.pure, Except.ok.injEq] at h
    subst h
    simp
  | cons p rest ih =>
    intro acc out h
    obtain ⟨n, q⟩ := p
    simp only [List.foldlM_cons] at h
    cases hstep : addDrug acc (n, q) with
    | error e => rw [hstep] at h; cases h
    | ok acc2 =>
      rw [hstep] at h
      have hrec := ih acc2 out h
      rw [hrec]
      rcases addDrug_cases acc acc2 n q hstep with ⟨hq, hacc⟩ | ⟨hq, effects, _, hacc⟩
      · subst hacc
        constructor
        · rintro (h1 | ⟨p, hp, hkp, he⟩)
          · exact Or.inl h1
          · exact Or.inr ⟨p, List.mem_cons_of_mem _ hp, hkp, he⟩
        · rintro (h1 | ⟨p, hp, hkp, he⟩)
          · exact Or.inl h1
          · rcases List.mem_cons.mp hp with hp | hp
            · subst hp
              rw [hq] at he
              cases he
            · exact Or.inr ⟨p, hp, hkp, he⟩
      · subst hacc
        by_cases hkn : k = toStr n
        · subst hkn
          simp only [lookupProp_assign_same _ _ _ _ hk, Option.isSome_some, true_or, true_iff]
          exact Or.inr ⟨(n, q), List.mem_cons_self _ _, rfl, hq⟩
        · rw [lookupProp_assign_other k (toStr n) _ _ _ hkn]
          constructor
          · rintro (h1 | ⟨p, hp, hkp, he⟩)
            · exact Or.inl h1
            · exact Or.inr ⟨p, List.mem_cons_of_mem _ hp, hkp, he⟩
          · rintro (h1 | ⟨p, hp, hkp, he⟩)
            · exact Or.inl h1
            · rcases List.mem_cons.mp hp with hp | hp
              · subst hp
                exact absurd hkp.symm hkn
              · exact Or.inr ⟨p, hp, hkp, he⟩

theorem foldlM_addDrug_values (queryFor : String → JsVal) (k : String) (hk : k ≠ "__proto__") :
    ∀ (pairs : List (JsVal × JsVal)) (acc out : Built),
      pairs.foldlM addDrug acc = .ok out →
      (∀ p ∈ pairs, p.2 = queryFor (toStr p.1)) →
      (∀ v, lookupProp k acc.props = some v → ∃ effects,
        (eachEntries (resultsOf (queryFor k))).foldlM addEffect Built.empty = .ok effects ∧
          v = obj effects.props) →
      ∀ v, lookupProp k out.props = some v → ∃ effects,
        (eachEntries (resultsOf (queryFor k))).foldlM addEffect Built.empty = .ok effects ∧
          v = obj effects.props := by
  intro pairs
  induction pairs with
  | nil =>
    intro acc out h _ hacc
    simp only [List.foldlM_nil, pure, Except.pure, Except.ok.injEq] at h
    subst h
    exact hacc
  | cons p rest ih =>
    intro acc out h hq hacc
    obtain ⟨n, q⟩ := p
    simp only [List.foldlM_cons] at h
    cases hstep : addDrug acc (n, q) with
    | error e => rw [hstep] at h; cases h
    | ok acc2 =>
      rw [hstep] at h
      refine ih acc2 out h (fun p hp => hq p (List.mem_cons_of_mem _ hp)) ?_
      rcases addDrug_cases acc acc2 n q hstep with ⟨_, hacc2⟩ | ⟨_, effects, hfold, hacc2⟩
      · subst hacc2
        exact hacc
      · subst hacc2
        intro v hv
        by_cases hkn : k = toStr n
        · subst hkn
          rw [lookupProp_assign_same _ _ _ _ hk] at hv
          have hqn : q = queryFor (toStr n) := hq (n, q) (List.mem_cons_self _ _)
          rw [← hqn]
          exact ⟨effects, hfold, by cases hv; rfl⟩
        · rw [lookupProp_assign_other k (toStr n) _ _ _ hkn] at hv
          exact hacc v hv

theorem addEffect_ok (effects out : Built) (value : JsVal) (key : String)
    (h : addEffect effects (value, str key) = .ok out) :
    ∃ url, getProp value "fullurl" = .ok url ∧
      out = assign key url (chainThrough url) effects := by
  simp only [addEffect, bind, Except.bind, pure, Except.pure] at h
  cases hget : getProp value "fullurl" with
  | error e => rw [hget] at h; cases h
  | ok url =>
    rw [hget] at h
    refine ⟨url, rfl, ?_⟩
    simp only [toStr_str, Except.ok.injEq] at h
    exact h.symm

theorem foldlM_addEffect_keys (valueOf : String → JsVal) (k : String) (hk : k ≠ "__proto__") :
    ∀ (keys : List String) (acc out : Built),
      (keys.map fun key => (valueOf key, str key)).foldlM addEffect acc = .ok out →
      ((lookupProp k out.props).isSome = true ↔
        ((lookupProp k acc.props).isSome = true ∨ k ∈ keys)) ∧
      ((∀ url, lookupProp k acc.props = some url → getProp (valueOf k) "fullurl" = .ok url) →
        ∀ url, lookupProp k out.props = some url → getProp (valueOf k) "fullurl" = .ok url) := by
  intro keys
  induction keys with
  | nil =>
    intro acc out h
    simp only [List.map_nil, List.foldlM_nil, pure, Except.pure, Except.ok.injEq] at h
    subst h
    simp
  | cons key rest ih =>
    intro acc out h
    simp only [List.map_cons, List.foldlM_cons] at h
    cases hstep : addEffect acc (valueOf key, str key) with
    | error e => rw [hstep] at h; cases h
    | ok acc2 =>
      rw [hstep] at h
      obtain ⟨url, hurl, hacc2⟩ := addEffect_ok acc acc2 (valueOf key) key hstep
      subst hacc2
      obtain ⟨hkeys, hvals⟩ := ih _ out h
      constructor
      · rw [hkeys]
        by_cases hkk : k = key
        · subst hkk
          simp [lookupProp_assign_same _ _ _ _ hk]
        · rw [lookupProp_assign_other k key _ _ _ hkk]
          simp [hkk]
      · intro hacc
        apply hvals
        intro u hu
        by_cases hkk : k = key
        · subst hkk
          rw [lookupProp_assign_same _ _ _ _ hk] at hu
          cases hu
          exact hurl
        · rw [lookupProp_assign_other k key _ _ _ hkk] at hu
          exact hacc u hu

theorem eachEntries_obj (props : List (String × JsVal)) (hplain : arrayLikeLength props = none) :
    eachEntries (obj props)
      = (props.map Prod.fst).map fun k => ((lookupProp k props).getD undefined, str k) := by
  simp [eachEntries, hplain]

theorem effects_of_object (props : List (String × JsVal)) (effects : Built)
    (hplain : arrayLikeLength props = none)
    (h : (eachEntries (obj props)).foldlM addEffect Built.empty = .ok effects)
    (k : String) (hk : k ≠ "__proto__") :
    ((lookupProp k effects.props).isSome = true ↔ (lookupProp k props).isSome = true) ∧
      ∀ value, lookupProp k props = some value →
        ∃ url, getProp value "fullurl" = .ok url ∧ lookupProp k effects.props = some url := by
  rw [eachEntries_obj props hplain] at h
  obtain ⟨hkeys, hvals⟩ :=
    foldlM_addEffect_keys (fun k => (lookupProp k props).getD undefined) k hk _ Built.empty
      effects h
  have hiff : (lookupProp k effects.props).isSome = true ↔ (lookupProp k props).isSome = true := by
    rw [hkeys, lookupProp_isSome_iff_mem k props]
    have hnil : (lookupProp k Built.empty.props).isSome = false := rfl
    rw [hnil]
    simp only [Bool.false_eq_true, false_or]
  refine ⟨hiff, ?_⟩
  intro value hkv
  have hsome : (lookupProp k effects.props).isSome = true := hiff.mpr (by rw [hkv]; rfl)
  obtain ⟨url, hurl⟩ := Option.isSome_iff_exists.mp hsome
  have := hvals (by intro u h2; simp [Built.empty, lookupProp] at h2) url hurl
  rw [hkv] at this
  exact ⟨url, this, hurl⟩

theorem effectsPromise_ok (ask : String → Except JsVal JsVal) (n : JsVal) (p : JsVal × JsVal)
    (h : effectsPromise ask n = .ok p) :
    p.1 = n ∧ ∃ body, ask (toStr n) = .ok body ∧ getProp body "query" = .ok p.2 := by
  simp only [effectsPromise, bind, Except.bind, pure, Except.pure] at h
  cases hreq : requested (ask (toStr n)) with
  | error e => simp only [hreq] at h; cases h
  | ok body =>
    simp only [hreq] at h
    cases hq : getProp body "query" with
    | error e => simp only [hq] at h; cases h
    | ok query =>
      simp only [hq] at h
      cases h
      exact ⟨rfl, body, (requested_ok _ _).mp hreq, hq⟩

theorem effectsPromise_queryOf (ask : String → Except JsVal JsVal) (n : JsVal) (p : JsVal × JsVal)
    (h : effectsPromise ask n = .ok p) : p.1 = n ∧ p.2 = queryOf ask (toStr n) := by
  obtain ⟨h1, body, hb, hq⟩ := effectsPromise_ok ask n p h
  exact ⟨h1, by simp only [queryOf, hb, hq]⟩

theorem extractEffects_reject (ask : String → Except JsVal JsVal) (names : List JsVal) (e : Err)
    (hall : promiseAll (names.map (effectsPromise ask)) = .error e) :
    extractEffects ask names
      = ⟨(names.map fun drugName => Event.effectsRequested (askApiPrefix ++ askQuery drugName))
          ++ [.failed], .error e⟩ := by
  simp only [extractEffects, hall]

theorem extractEffects_settle (ask : String → Except JsVal JsVal) (names : List JsVal)
    (pairs : List (JsVal × JsVal))
    (hall : promiseAll (names.map (effectsPromise ask)) = .ok pairs) :
    extractEffects ask names
      = ⟨(names.map fun drugName => Event.effectsRequested (askApiPrefix ++ askQuery drugName))
          ++ [.settled], buildEffectMap pairs⟩ := by
  simp only [extractEffects, hall]

theorem buildEffectMap_ok (pairs : List (JsVal × JsVal)) (effectMap : List (String × JsVal))
    (h : buildEffectMap pairs = .ok effectMap) :
    ∃ out, pairs.foldlM addDrug Built.empty = .ok out ∧ out.props = effectMap := by
  unfold buildEffectMap at h
  cases hfold : pairs.foldlM addDrug Built.empty with
  | error e => rw [hfold] at h; cases h
  | ok out =>
    rw [hfold] at h
    exact ⟨out, rfl, by cases h; rfl⟩

theorem extractEffects_ok (ask : String → Except JsVal JsVal) (names : List JsVal)
    (effectMap : List (String × JsVal)) (h : (extractEffects ask names).result = .ok effectMap) :
    ∃ pairs out, List.Forall₂ (fun n p => effectsPromise ask n = .ok p) names pairs ∧
      pairs.foldlM addDrug Built.empty = .ok out ∧ out.props = effectMap := by
  cases hall : promiseAll (names.map (effectsPromise ask)) with
  | error e => rw [extractEffects_reject ask names e hall] at h; cases h
  | ok pairs =>
    rw [extractEffects_settle ask names pairs hall] at h
    obtain ⟨out, hfold, hprops⟩ := buildEffectMap_ok pairs effectMap h
    exact ⟨pairs, out, promiseAll_ok _ names pairs hall, hfold, hprops⟩

theorem forall₂_mem_left {α β : Type} {R : α → β → Prop} :
    ∀ {l : List α} {m : List β}, List.Forall₂ R l m → ∀ a ∈ l, ∃ b ∈ m, R a b := by
  intro l m h
  induction h with
  | nil => intro a ha; simp at ha
  | cons hab _ ih =>
    intro a ha
    rcases List.mem_cons.mp ha with ha | ha
    · subst ha
      exact ⟨_, List.mem_cons_self _ _, hab⟩
    · obtain ⟨b, hb, hr⟩ := ih a ha
      exact ⟨b, List.mem_cons_of_mem _ hb, hr⟩

theorem forall₂_mem_right {α β : Type} {R : α → β → Prop} :
    ∀ {l : List α} {m : List β}, List.Forall₂ R l m → ∀ b ∈ m, ∃ a ∈ l, R a b := by
  intro l m h
  induction h with
  | nil => intro b hb; simp at hb
  | cons hab _ ih =>
    intro b hb
    rcases List.mem_cons.mp hb with hb | hb
    · subst hb
      exact ⟨_, List.mem_cons_self _ _, hab⟩
    · obtain ⟨a, ha, hr⟩ := ih b hb
      exact ⟨a, List.mem_cons_of_mem _ ha, hr⟩

theorem extractEffects_has_key (ask : String → Except JsVal JsVal) (names : List JsVal)
    (effectMap : List (String × JsVal)) (h : (extractEffects ask names).result = .ok effectMap)
    (k : String) (hk : k ≠ "__proto__") :
    (lookupProp k effectMap).isSome = true ↔
      ∃ n ∈ names, toStr n = k ∧ hasEffects (queryOf ask k) = true := by
  obtain ⟨pairs, out, hf, hfold, hprops⟩ := extractEffects_ok ask names effectMap h
  subst hprops
  rw [foldlM_addDrug_keys k hk pairs Built.empty out hfold]
  have hnil : (lookupProp k Built.empty.props).isSome = false := rfl
  rw [hnil]
  simp only [Bool.false_eq_true, false_or]
  constructor
  · rintro ⟨p, hp, hkp, he⟩
    obtain ⟨n, hn, hnp⟩ := forall₂_mem_right hf p hp
    obtain ⟨h1, h2⟩ := effectsPromise_queryOf ask n p hnp
    rw [h1] at hkp
    rw [h2, hkp] at he
    exact ⟨n, hn, hkp, he⟩
  · rintro ⟨n, hn, hkn, he⟩
    obtain ⟨p, hp, hnp⟩ := forall₂_mem_left hf n hn
    obtain ⟨h1, h2⟩ := effectsPromise_queryOf ask n p hnp
    exact ⟨p, hp, by rw [h1]; exact hkn, by rw [h2, hkn]; exact he⟩

theorem extractEffects_value (ask : String → Except JsVal JsVal) (names : List JsVal)
    (effectMap : List (String × JsVal)) (h : (extractEffects ask names).result = .ok effectMap)
    (k : String) (hk : k ≠ "__proto__") (v : JsVal) (hv : lookupProp k effectMap = some v) :
    ∃ effects,
      (eachEntries (resultsOf (queryOf ask k))).foldlM addEffect Built.empty = .ok effects ∧
      v = obj effects.props := by
  obtain ⟨pairs, out, hf, hfold, hprops⟩ := extractEffects_ok ask names effectMap h
  subst hprops
  refine foldlM_addDrug_values (queryOf ask) k hk pairs Built.empty out hfold ?_ ?_ v hv
  · intro p hp
    obtain ⟨n, _, hnp⟩ := forall₂_mem_right hf p hp
    obtain ⟨h1, h2⟩ := effectsPromise_queryOf ask n p hnp
    rw [h2, h1]
  · intro v2 h2
    simp [Built.empty, lookupProp] at h2

theorem queryOf_eq (ask : String → Except JsVal JsVal) (name : String) (body query : JsVal)
    (hbody : ask name = .ok body) (hquery : getProp body "query" = .ok query) :
    queryOf ask name = query := by
  simp only [queryOf, hbody, hquery]

theorem hasEffects_queryOf (ask : String → Except JsVal JsVal) (name : String)
    (h : hasEffects (queryOf ask name) = true) :
    ∃ body query, ask name = .ok body ∧ getProp body "query" = .ok query ∧
      queryOf ask name = query := by
  cases hb : ask name with
  | error e => simp [queryOf, hb, hasEffects, has] at h
  | ok body =>
    cases hq : getProp body "query" with
    | error e => simp [queryOf, hb, hq, hasEffects, has] at h
    | ok query => exact ⟨body, query, rfl, hq, queryOf_eq ask name body query hb hq⟩

theorem foldlM_addEffect_total :
    ∀ (visits : List (JsVal × JsVal)), (∀ vk ∈ visits, isNullish vk.1 = false) →
      ∀ acc, ∃ out, visits.foldlM addEffect acc = .ok out := by
  intro visits
  induction visits with
  | nil => intro _ acc; exact ⟨acc, rfl⟩
  | cons vk rest ih =>
    intro h acc
    obtain ⟨url, hurl⟩ := getProp_total vk.1 "fullurl" (h vk (List.mem_cons_self _ _))
    obtain ⟨out, hout⟩ := ih (fun x hx => h x (List.mem_cons_of_mem _ hx))
      (assign (toStr vk.2) url (chainThrough url) acc)
    refine ⟨out, ?_⟩
    simp only [List.foldlM_cons, addEffect, hurl, bind, Except.bind, pure, Except.pure]
    exact hout

theorem addDrug_total (effectMap : Built) (drugName query : JsVal)
    (h : ∀ vk ∈ eachEntries (resultsOf query), isNullish vk.1 = false) :
    ∃ out, addDrug effectMap (drugName, query) = .ok out := by
  cases hq : hasEffects query with
  | false => exact ⟨effectMap, addDrug_skip effectMap drugName query hq⟩
  | true =>
    obtain ⟨effects, he⟩ := foldlM_addEffect_total _ h Built.empty
    exact ⟨_, by rw [addDrug_store effectMap drugName query hq, he]⟩

theorem foldlM_addDrug_total :
    ∀ (pairs : List (JsVal × JsVal)),
      (∀ p ∈ pairs, ∀ vk ∈ eachEntries (resultsOf p.2), isNullish vk.1 = false) →
      ∀ acc, ∃ out, pairs.foldlM addDrug acc = .ok out := by
  intro pairs
  induction pairs with
  | nil => intro _ acc; exact ⟨acc, rfl⟩
  | cons p rest ih =>
    intro h acc
    obtain ⟨acc2, h2⟩ := addDrug_total acc p.1 p.2 (h p (List.mem_cons_self _ _))
    obtain ⟨out, hout⟩ := ih (fun x hx => h x (List.mem_cons_of_mem _ hx)) acc2
    refine ⟨out, ?_⟩
    simp only [List.foldlM_cons]
    have : addDrug acc p = .ok acc2 := h2
    rw [this]
    exact hout

theorem extractEffects_total (ask : String → Except JsVal JsVal) (names : List JsVal)
    (h : ∀ n ∈ names, ∃ body query, ask (toStr n) = .ok body ∧ getProp body "query" = .ok query ∧
      ∀ vk ∈ eachEntries (resultsOf query), isNullish vk.1 = false) :
    ∃ effectMap, (extractEffects ask names).result = .ok effectMap := by
  obtain ⟨pairs, hall⟩ := promiseAll_total (effectsPromise ask) names (fun n hn => by
    obtain ⟨body, query, hb, hq, _⟩ := h n hn
    exact ⟨(n, query), by
      simp only [effectsPromise, hb, requested, bind, Except.bind, hq, pure, Except.pure]⟩)
  rw [extractEffects_settle ask names pairs hall]
  obtain ⟨out, hout⟩ := foldlM_addDrug_total pairs (by
    intro p hp
    obtain ⟨n, hn, hnp⟩ := forall₂_mem_right (promiseAll_ok _ names pairs hall) p hp
    obtain ⟨body, query, hb, hq, hwf⟩ := h n hn
    obtain ⟨_, h2⟩ := effectsPromise_queryOf ask n p hnp
    rw [h2, queryOf_eq ask _ body query hb hq]
    exact hwf) Built.empty
  exact ⟨out.props, by simp only [buildEffectMap, hout]⟩

theorem extractEffects_fails (ask : String → Except JsVal JsVal) (names : List JsVal)
    (n : JsVal) (reason : JsVal) (hn : n ∈ names) (hfail : ask (toStr n) = .error reason) :
    ∃ e, (extractEffects ask names).result = .error e := by
  obtain ⟨e, he⟩ := promiseAll_fails (effectsPromise ask) names n (.rejected reason) hn
    (by simp only [effectsPromise, hfail, requested, bind, Except.bind])
  exact ⟨e, by rw [extractEffects_reject ask names e he]⟩

/-! ## The pipeline: proofs -/

theorem writes_append (a b : List Event) : writes (a ++ b) = writes a ++ writes b := by
  induction a with
  | nil => rfl
  | cons ev rest ih => cases ev <;> simp [writes, ih]

theorem writes_lookups (l : List JsVal) : writes (l.map Event.lookupRequested) = [] := by
  induction l with
  | nil => rfl
  | cons x rest ih => simpa [writes] using ih

theorem writes_queries (l : List JsVal) :
    writes (l.map fun drugName => Event.effectsRequested (askApiPrefix ++ askQuery drugName))
      = [] := by
  induction l with
  | nil => rfl
  | cons x rest ih => simpa [writes] using ih

theorem writes_getAllDrugs (allDrugs : Except JsVal JsVal) :
    writes (getAllDrugs allDrugs).trace = [] := by
  cases allDrugs <;> rfl

theorem writes_resolveChunks (search : JsVal → Except JsVal JsVal) :
    ∀ (chunks : List (List JsVal)) (pwNames : List JsVal),
      writes (resolveChunks search chunks pwNames).trace = [] := by
  intro chunks
  induction chunks with
  | nil => intro _; rfl
  | cons c rest ih =>
    intro pwNames
    cases hall : promiseAll (c.map fun name => requested (search name)) with
    | error e =>
      rw [resolveChunks_reject search c rest pwNames e hall]
      simp [writes_append, writes_lookups, writes]
    | ok bodies =>
      cases hfold : bodies.foldlM collectMatch pwNames with
      | error e =>
        rw [resolveChunks_throw search c rest pwNames bodies e hall hfold]
        simp [writes_append, writes_lookups, writes]
      | ok acc2 =>
        rw [resolveChunks_next search c rest pwNames bodies acc2 hall hfold]
        simp [writes_append, writes_lookups, writes, ih]

theorem writes_getPWDrugs (search : JsVal → Except JsVal JsVal) (names : List JsVal) :
    writes (getPWDrugs search names).trace = [] := by
  cases names with
  | nil => rfl
  | cons x rest =>
    rw [getPWDrugs_nonempty search (x :: rest) (by simp)]
    exact writes_resolveChunks search _ _

theorem writes_extractEffects (ask : String → Except JsVal JsVal) (names : List JsVal) :
    writes (extractEffects ask names).trace = [] := by
  cases hall : promiseAll (names.map (effectsPromise ask)) with
  | error e =>
    rw [extractEffects_reject ask names e hall]
    simp [writes_append, writes_queries, writes]
  | ok pairs =>
    rw [extractEffects_settle ask names pairs hall]
    simp [writes_append, writes_queries, writes]

theorem andThen_error {α β : Type} (first : Outcome α) (next : α → Outcome β) (e : Err)
    (h : first.result = .error e) : first.andThen next = ⟨first.trace, .error e⟩ := by
  simp only [Outcome.andThen, h]

theorem andThen_ok {α β : Type} (first : Outcome α) (next : α → Outcome β) (a : α)
    (h : first.result = .ok a) :
    first.andThen next = ⟨first.trace ++ (next a).trace, (next a).result⟩ := by
  simp only [Outcome.andThen, h]

theorem run_stage1_error (targetPath : String) (world : Collaborators) (e : Err)
    (h : (getAllDrugs world.allDrugs).result = .error e) :
    (run targetPath world).result = .error e ∧ writes (run targetPath world).trace = [] := by
  unfold run
  rw [andThen_error _ _ e h]
  exact ⟨rfl, writes_getAllDrugs _⟩

theorem run_stage2_error (targetPath : String) (world : Collaborators) (names : List JsVal)
    (e : Err) (h1 : (getAllDrugs world.allDrugs).result = .ok names)
    (h2 : (getPWDrugs world.search names).result = .error e) :
    (run targetPath world).result = .error e ∧ writes (run targetPath world).trace = [] := by
  unfold run
  rw [andThen_ok _ _ names h1, andThen_error _ _ e h2]
  exact ⟨rfl, by simp [writes_append, writes_getAllDrugs, writes_getPWDrugs]⟩

theorem run_stage3_error (targetPath : String) (world : Collaborators)
    (names matching : List JsVal) (e : Err)
    (h1 : (getAllDrugs world.allDrugs).result = .ok names)
    (h2 : (getPWDrugs world.search names).result = .ok matching)
    (h3 : (extractEffects world.ask matching).result = .error e) :
    (run targetPath world).result = .error e ∧ writes (run targetPath world).trace = [] := by
  unfold run
  rw [andThen_ok _ _ names h1, andThen_ok _ _ matching h2, andThen_error _ _ e h3]
  exact ⟨rfl, by simp [writes_append, writes_getAllDrugs, writes_getPWDrugs,
    writes_extractEffects]⟩

theorem run_success (targetPath : String) (world : Collaborators)
    (names matching : List JsVal) (effectMap : List (String × JsVal))
    (h1 : (getAllDrugs world.allDrugs).result = .ok names)
    (h2 : (getPWDrugs world.search names).result = .ok matching)
    (h3 : (extractEffects world.ask matching).result = .ok effectMap) :
    (run targetPath world).result = .ok () ∧
      writes (run targetPath world).trace = [(targetPath, obj effectMap)] := by
  unfold run
  rw [andThen_ok _ _ names h1, andThen_ok _ _ matching h2, andThen_ok _ _ effectMap h3]
  exact ⟨rfl, by simp [writes_append, writes_getAllDrugs, writes_getPWDrugs,
    writes_extractEffects, saveEffects, writes]⟩

theorem run_cases (targetPath : String) (world : Collaborators) :
    (∃ e, (run targetPath world).result = .error e ∧ writes (run targetPath world).trace = []) ∨
      ∃ names matching effectMap,
        (getAllDrugs world.allDrugs).result = .ok names ∧
        (getPWDrugs world.search names).result = .ok matching ∧
        (extractEffects world.ask matching).result = .ok effectMap ∧
        (run targetPath world).result = .ok () ∧
        writes (run targetPath world).trace = [(targetPath, obj effectMap)] := by
  cases h1 : (getAllDrugs world.allDrugs).result with
  | error e => exact Or.inl ⟨e, run_stage1_error targetPath world e h1⟩
  | ok names =>
    cases h2 : (getPWDrugs world.search names).result with
    | error e => exact Or.inl ⟨e, run_stage2_error targetPath world names e h1 h2⟩
    | ok matching =>
      cases h3 : (extractEffects world.ask matching).result with
      | error e => exact Or.inl ⟨e, run_stage3_error targetPath world names matching e h1 h2 h3⟩
      | ok effectMap =>
        exact Or.inr ⟨names, matching, effectMap, rfl, h2, h3,
          run_success targetPath world names matching effectMap h1 h2 h3⟩

/-! ## The claims -/

/-- C1: for every catalog (a sequence of entries with a name and an optional
list of aliases, a missing list counting as empty), `processAllDrugs` sets
the candidate list to exactly the first 150 elements of the sequence that
emits, for each entry in input order, its name followed by its aliases in
order; the catalog of scenario 1 yields "A", "A1", "B". -/
theorem processAllDrugs_flatten_take :
    (∀ catalog : List CatalogEntry,
      processAllDrugs (catalogToJs catalog)
        = .ok (((flattenCatalog catalog).take 150).map str)) ∧
    processAllDrugs (catalogToJs [⟨"A", some ["A1"]⟩, ⟨"B", some []⟩])
      = .ok [str "A", str "A1", str "B"] ∧
    processAllDrugs (catalogToJs [⟨"A", some ["A1"]⟩, ⟨"B", none⟩])
      = .ok [str "A", str "A1", str "B"] :=
  ⟨processAllDrugs_catalog, rfl, rfl⟩

/-- C8: for every catalog, the candidate list produced by `processAllDrugs`
has at most 150 names, and its length is the minimum of 150 and the sum
over the entries of 1 plus the number of aliases of the entry. -/
theorem processAllDrugs_length (catalog : List CatalogEntry) :
    ∃ drugNames, processAllDrugs (catalogToJs catalog) = .ok drugNames ∧
      drugNames.length ≤ 150 ∧
      drugNames.length
        = min 150 (catalog.map fun e => 1 + (e.aliases.getD []).length).sum := by
  refine ⟨_, processAllDrugs_catalog catalog, ?_, ?_⟩
  · simp only [List.length_map, List.length_take]
    omega
  · simp only [List.length_map, List.length_take, length_flattenCatalog]

/-- C9, as the claim states it, fails: `getAllDrugs` validates the fetched
`body.data`, and the catalog it hands to `processAllDrugs` is the first
item of `body.data`, which is not validated.  When that catalog is the
empty sequence the step returns the empty candidate list, and when it is
not a sequence but an object keyed by drug the step returns the names of
its entries; neither raises. -/
theorem getAllDrugs_accepts_unvalidated_catalog :
    getProp demoEmptyCatalogBody "data" = .ok (arr [arr []]) ∧
    first (arr [arr []]) = arr [] ∧
    processAllDrugs (arr []) = .ok [] ∧
    (getAllDrugs (.ok demoEmptyCatalogBody)).result = .ok [] ∧
    isArray (first (arr [obj [("lsd",
      obj [("name", str "LSD"), ("aliases", arr [str "acid"])])]])) = false ∧
    (getAllDrugs (.ok demoKeyedCatalogBody)).result = .ok [str "LSD", str "acid"] :=
  ⟨rfl, rfl, rfl, rfl, rfl, rfl⟩

/-- C9, amended: `getAllDrugs` raises a failed assertion, and produces no
candidate list, whenever the fetched `body.data` is not an array or is the
empty array. -/
theorem getAllDrugs_rejects_bad_data (body data : JsVal)
    (hdata : getProp body "data" = .ok data)
    (hbad : isArray data = false ∨ data = arr []) :
    (getAllDrugs (.ok body)).result
        = .error (.assertion "Tripsit allDrugs list should be an array") ∨
      (getAllDrugs (.ok body)).result
        = .error (.assertion "Tripsit allDrugs list should not be empty") := by
  simp only [getAllDrugs, requested, validateAllDrugs, hdata, bind, Except.bind]
  rcases hbad with h | h
  · left
    simp [h, assertTrue]
  · right
    subst h
    rfl

/-- The amended C9 at two responses: `data` is an object, and `data` is the
empty array. -/
theorem getAllDrugs_rejects_bad_data_witness :
    ((getAllDrugs (.ok (obj [("data", obj [])]))).result
        = .error (.assertion "Tripsit allDrugs list should be an array") ∨
      (getAllDrugs (.ok (obj [("data", obj [])]))).result
        = .error (.assertion "Tripsit allDrugs list should not be empty")) ∧
    ((getAllDrugs (.ok (obj [("data", arr [])]))).result
        = .error (.assertion "Tripsit allDrugs list should be an array") ∨
      (getAllDrugs (.ok (obj [("data", arr [])]))).result
        = .error (.assertion "Tripsit allDrugs list should not be empty")) :=
  ⟨getAllDrugs_rejects_bad_data (obj [("data", obj [])]) (obj []) rfl (Or.inl rfl),
    getAllDrugs_rejects_bad_data (obj [("data", arr [])]) (arr []) rfl (Or.inr rfl)⟩

/-- C2: for every candidate list and every lookup that returns a pair of
the term echoed by the service (the name it was queried with) and a match
payload, the matched list produced by `getPWDrugs` is a subsequence of the
candidates that preserves relative order, and no name whose lookup returned
an empty match payload is in it: every name in it has a payload whose size
is not 0.  Such a list is produced whenever the candidates are non-empty
and every lookup succeeds. -/
theorem getPWDrugs_sublist_of_echo (search : JsVal → Except JsVal JsVal)
    (names : List JsVal)
    (hecho : ∀ n body, search n = .ok body →
      ∃ payload extra, body = arr (n :: payload :: extra)) :
    (∀ matching, (getPWDrugs search names).result = .ok matching →
      matching.Sublist names ∧
      ∀ n ∈ matching, ∃ payload extra,
        search n = .ok (arr (n :: payload :: extra)) ∧ sizeTruthy payload = true) ∧
    (names ≠ [] → (∀ n ∈ names, ∃ body, search n = .ok body) →
      ∃ matching, (getPWDrugs search names).result = .ok matching) := by
  constructor
  · intro matching h
    have hne : names ≠ [] := by
      intro h0
      subst h0
      cases h
    rw [getPWDrugs_nonempty search names hne] at h
    have hout := resolveChunks_echo search hecho _ _ _ h
    rw [chunk_flatten names 5 (by omega), List.nil_append] at hout
    subst hout
    refine ⟨List.filter_sublist _, ?_⟩
    intro n hn
    have hm : matchedBy search n = true := (List.mem_filter.mp hn).2
    unfold matchedBy at hm
    cases hs : search n with
    | error e => rw [hs] at hm; cases hm
    | ok body =>
      obtain ⟨payload, extra, hbody⟩ := hecho n body hs
      subst hbody
      rw [hs] at hm
      exact ⟨payload, extra, rfl, hm⟩
  · intro hne hall
    rw [getPWDrugs_nonempty search names hne]
    apply resolveChunks_total
    intro n hn
    rw [chunk_flatten names 5 (by omega)] at hn
    obtain ⟨body, hbody⟩ := hall n hn
    obtain ⟨payload, extra, hshape⟩ := hecho n body hbody
    exact ⟨_, by rw [hbody, hshape]⟩

/-- C2 on scenario 2: the matched list "A", "B" of the candidates "A",
"A1", "B" is a subsequence of them, and both names have a non-empty match
payload. -/
theorem getPWDrugs_sublist_of_echo_witness :
    List.Sublist [str "A", str "B"] [str "A", str "A1", str "B"] ∧
    ∀ n ∈ [str "A", str "B"], ∃ payload extra,
      demoSearch n = .ok (arr (n :: payload :: extra)) ∧ sizeTruthy payload = true :=
  (getPWDrugs_sublist_of_echo demoSearch [str "A", str "A1", str "B"]
    (fun n body h => ⟨demoPayload n, [], by cases h; rfl⟩)).1 [str "A", str "B"] rfl

/-- C3: for every non-empty candidate list and every lookup that echoes
back the name it was queried with, `getPWDrugs` returns exactly the
candidates whose match payload has a size above 0 (`_.size` is truthy), in
candidate order and with repeated names kept, whatever the length of the
list. -/
theorem getPWDrugs_echo_filter (payload : JsVal → JsVal) (extra : JsVal → List JsVal)
    (names : List JsVal) (hne : names ≠ []) :
    (getPWDrugs (fun n => .ok (arr (n :: payload n :: extra n))) names).result
      = .ok (names.filter fun n => sizeTruthy (payload n)) := by
  have hecho : ∀ n body,
      (fun n => (Except.ok (arr (n :: payload n :: extra n)) : Except JsVal JsVal)) n = .ok body →
      ∃ p x, body = arr (n :: p :: x) := by
    intro n body h
    exact ⟨payload n, extra n, by cases h; rfl⟩
  rw [getPWDrugs_nonempty _ names hne]
  obtain ⟨out, hout⟩ := resolveChunks_total
    (fun n => (Except.ok (arr (n :: payload n :: extra n)) : Except JsVal JsVal))
    (chunk names 5) (fun n _ => ⟨_, rfl⟩) []
  rw [hout]
  have h := resolveChunks_echo _ hecho _ _ _ hout
  rw [chunk_flatten names 5 (by omega), List.nil_append] at h
  rw [h]
  rfl

/-- C3 on scenario 2: the candidates "A", "A1", "B" with matches for "A"
and "B" only resolve to "A", "B". -/
theorem getPWDrugs_echo_filter_witness :
    [str "A", str "A1", str "B"] ≠ [] ∧
    (getPWDrugs demoSearch [str "A", str "A1", str "B"]).result = .ok [str "A", str "B"] :=
  ⟨by simp,
    getPWDrugs_echo_filter demoPayload (fun _ => []) [str "A", str "A1", str "B"] (by simp)⟩

/-- C6: for every candidate list, `getPWDrugs` partitions it into
consecutive groups whose concatenation is the list, every group but the
last has exactly 5 names and every group has between 1 and 5; the lookups
are requested one group at a time, each group awaited as a whole before the
next is requested (the run stops at the first group that rejects), and at
no point of the run are more than 5 lookups outstanding. -/
theorem getPWDrugs_waves (search : JsVal → Except JsVal JsVal) (names : List JsVal) :
    (chunk names 5).flatten = names ∧
    (∀ c ∈ chunk names 5, 1 ≤ c.length ∧ c.length ≤ 5) ∧
    (∀ c ∈ (chunk names 5).dropLast, c.length = 5) ∧
    (∃ k, k ≤ (chunk names 5).length ∧
      ((getPWDrugs search names).trace = ((chunk names 5).take k).flatMap waveTrace ∨
        ∃ c, (chunk names 5)[k]? = some c ∧
          (getPWDrugs search names).trace
            = ((chunk names 5).take k).flatMap waveTrace
                ++ (c.map Event.lookupRequested ++ [Event.failed]))) ∧
    (∀ matching, (getPWDrugs search names).result = .ok matching →
      (getPWDrugs search names).trace = (chunk names 5).flatMap waveTrace) ∧
    (∀ k, inFlight 0 ((getPWDrugs search names).trace.take k) ≤ 5) := by
  have hparts := chunk_parts names 5 (by omega)
  refine ⟨chunk_flatten names 5 (by omega), hparts.1, hparts.2, ?_, ?_, ?_⟩
  · cases names with
    | nil => exact ⟨0, Nat.zero_le _, Or.inl rfl⟩
    | cons x rest =>
      rw [getPWDrugs_nonempty search (x :: rest) (by simp)]
      exact resolveChunks_waves search _ _
  · intro matching h
    cases names with
    | nil => cases h
    | cons x rest =>
      rw [getPWDrugs_nonempty search (x :: rest) (by simp)] at h ⊢
      exact resolveChunks_trace_ok search _ _ matching h
  · intro k
    cases names with
    | nil => simp [getPWDrugs_empty, inFlight]
    | cons x rest =>
      rw [getPWDrugs_nonempty search (x :: rest) (by simp)]
      exact resolveChunks_inFlight search _ (fun c hc => (hparts.1 c hc).2) [] k

/-- C10: `getPWDrugs` fails with the empty-input assertion if and only if
the candidate list is empty, and then no lookup has been requested; and for
every non-empty candidate list whose lookups all succeed with a result
pair, it returns a matched list. -/
theorem getPWDrugs_empty_input (search : JsVal → Except JsVal JsVal) (names : List JsVal) :
    ((getPWDrugs search names).result = .error (.assertion "drugNames are not set or empty")
      ↔ names = []) ∧
    (∀ message, (getPWDrugs search names).result = .error (.assertion message) → names = []) ∧
    (names = [] → (getPWDrugs search names).trace = []) ∧
    (names ≠ [] → (∀ n ∈ names, ∃ items, search n = .ok (arr items)) →
      ∃ matching, (getPWDrugs search names).result = .ok matching) := by
  have hassert : ∀ message,
      (getPWDrugs search names).result = .error (.assertion message) → names = [] := by
    intro message h
    by_contra hne
    rw [getPWDrugs_nonempty search names hne] at h
    rcases resolveChunks_error search _ _ _ h with ⟨_, _, _, _, he⟩ | ⟨_, he⟩ <;> cases he
  refine ⟨⟨hassert _, ?_⟩, hassert, ?_, ?_⟩
  · intro h
    subst h
    rfl
  · intro h
    subst h
    rfl
  · intro hne hall
    rw [getPWDrugs_nonempty search names hne]
    apply resolveChunks_total
    intro n hn
    rw [chunk_flatten names 5 (by omega)] at hn
    exact hall n hn

/-- C10 on scenario 2 and on the empty candidate list. -/
theorem getPWDrugs_empty_input_witness :
    (getPWDrugs demoSearch []).result = .error (.assertion "drugNames are not set or empty") ∧
    (getPWDrugs demoSearch []).trace = [] ∧
    ∃ matching, (getPWDrugs demoSearch [str "A", str "A1", str "B"]).result = .ok matching :=
  ⟨(getPWDrugs_empty_input demoSearch []).1.mpr rfl,
    (getPWDrugs_empty_input demoSearch []).2.2.1 rfl,
    (getPWDrugs_empty_input demoSearch [str "A", str "A1", str "B"]).2.2.2 (by simp)
      (fun n _ => ⟨_, rfl⟩)⟩

/-- The keys of the effect map, apart from the key `__proto__`: whenever
`extractEffects` builds the map, a name other than `__proto__` is a key of
it if and only if the name is in the matched-name list and its query has a
`results` field that is present and non-empty. -/
theorem extractEffects_key_iff_of_ne_proto (ask : String → Except JsVal JsVal)
    (names : List String) (effectMap : List (String × JsVal))
    (h : (extractEffects ask (names.map str)).result = .ok effectMap)
    (name : String) (hname : name ≠ "__proto__") :
    (lookupProp name effectMap).isSome = true ↔
      (name ∈ names ∧ ∃ body query,
        ask name = .ok body ∧ getProp body "query" = .ok query ∧
        has query "results" = true ∧ isEmpty (resultsOf query) = false) := by
  rw [extractEffects_has_key ask _ effectMap h name hname]
  constructor
  · rintro ⟨n, hn, hk, he⟩
    obtain ⟨s, hs, hsn⟩ := List.mem_map.mp hn
    subst hsn
    rw [toStr_str] at hk
    subst hk
    obtain ⟨body, query, hb, hq, hqo⟩ := hasEffects_queryOf ask s he
    rw [hqo] at he
    simp only [hasEffects, Bool.and_eq_true, Bool.not_eq_eq_eq_not, Bool.not_true] at he
    exact ⟨hs, body, query, hb, hq, he.1, he.2⟩
  · rintro ⟨hs, body, query, hb, hq, hhas, hne⟩
    refine ⟨str name, List.mem_map.mpr ⟨name, hs, rfl⟩, toStr_str name, ?_⟩
    rw [queryOf_eq ask name body query hb hq]
    simp [hasEffects, hhas, hne]

/-- The effect map is built whenever every query succeeds with a body that
can be read and with results whose visited values can be read. -/
theorem extractEffects_builds_map (ask : String → Except JsVal JsVal) (names : List String)
    (hall : ∀ name ∈ names, ∃ body query,
      ask name = .ok body ∧ getProp body "query" = .ok query ∧
      ∀ visit ∈ eachEntries (resultsOf query), isNullish visit.1 = false) :
    ∃ effectMap, (extractEffects ask (names.map str)).result = .ok effectMap := by
  apply extractEffects_total
  intro n hn
  obtain ⟨s, hs, hsn⟩ := List.mem_map.mp hn
  subst hsn
  rw [toStr_str]
  exact hall s hs

/-- The entry of a name, apart from the key `__proto__`: for a matched name
other than `__proto__` whose `results` is a non-empty object that is not
array-like, the entry stored by `extractEffects` is an object whose keys
other than `__proto__` are exactly those of `results`, each mapped to the
`fullurl` of its result. -/
theorem extractEffects_entry_of_ne_proto (ask : String → Except JsVal JsVal)
    (names : List String) (effectMap : List (String × JsVal))
    (h : (extractEffects ask (names.map str)).result = .ok effectMap)
    (name : String) (hname : name ∈ names) (hproto : name ≠ "__proto__")
    (body query : JsVal)
    (hbody : ask name = .ok body) (hquery : getProp body "query" = .ok query)
    (results : List (String × JsVal)) (hresults : resultsOf query = obj results)
    (hne : results ≠ []) (hplain : arrayLikeLength results = none) :
    ∃ effects, lookupProp name effectMap = some (obj effects) ∧
      ∀ effectName, effectName ≠ "__proto__" →
        ((lookupProp effectName effects).isSome = true ↔
          (lookupProp effectName results).isSome = true) ∧
        ∀ result, lookupProp effectName results = some result →
          ∃ fullurl, getProp result "fullurl" = .ok fullurl ∧
            lookupProp effectName effects = some fullurl := by
  have hq : queryOf ask name = query := queryOf_eq ask name body query hbody hquery
  have hhas : hasEffects query = true := by
    cases query <;> simp [resultsOf] at hresults
    rename_i props
    cases hl : lookupProp "results" props with
    | none => rw [hl] at hresults; simp at hresults
    | some v =>
      rw [hl] at hresults
      simp only [Option.getD_some] at hresults
      subst hresults
      cases results with
      | nil => exact absurd rfl hne
      | cons x rest => simp [hasEffects, has, resultsOf, hl, isEmpty]
  have hkey : (lookupProp name effectMap).isSome = true :=
    (extractEffects_has_key ask _ effectMap h name hproto).mpr
      ⟨str name, List.mem_map.mpr ⟨name, hname, rfl⟩, toStr_str name, by rw [hq]; exact hhas⟩
  obtain ⟨v, hv⟩ := Option.isSome_iff_exists.mp hkey
  obtain ⟨effects, hfold, hveq⟩ := extractEffects_value ask _ effectMap h name hproto v hv
  rw [hq, hresults] at hfold
  subst hveq
  exact ⟨effects.props, hv, fun effectName hk =>
    effects_of_object results effects hplain hfold effectName hk⟩

/-- C4, at an input where the code departs from the claim: the matched
names are `__proto__` and "A", and the query of each has the non-empty
results "euphoria".  The claim requires a key for both names; the
assignment `effectMap["__proto__"] = effects` runs the prototype setter and
defines no property, so the map built has the key "A" only. -/
theorem extractEffects_loses_proto_name :
    "__proto__" ∈ ["__proto__", "A"] ∧
    (∃ body query,
      demoEuphoriaAsk "__proto__" = .ok body ∧ getProp body "query" = .ok query ∧
      has query "results" = true ∧ isEmpty (resultsOf query) = false) ∧
    (extractEffects demoEuphoriaAsk (["__proto__", "A"].map str)).result
      = .ok [("A", obj [("euphoria", str "http://x/euphoria")])] ∧
    (lookupProp "__proto__" [("A", obj [("euphoria", str "http://x/euphoria")])]).isSome
      = false :=
  ⟨by simp, ⟨_, _, rfl, rfl, rfl, rfl⟩, rfl, rfl⟩

/-- C5, at an input where the code departs from the claim: the results of
the matched name "A" have the effects `__proto__` and "euphoria", each with
a `fullurl`.  The claim requires the entry of "A" to map both effect names;
the assignment `effects["__proto__"] = fullurl` runs the prototype setter
and defines no property, so the entry stored has the key "euphoria"
only. -/
theorem extractEffects_loses_proto_effect :
    resultsOf (queryOf demoProtoEffectAsk "A") = obj demoProtoResults ∧
    lookupProp "__proto__" demoProtoResults = some (obj [("fullurl", str "http://x/proto")]) ∧
    (extractEffects demoProtoEffectAsk (["A"].map str)).result
      = .ok [("A", obj [("euphoria", str "http://x/euphoria")])] ∧
    (lookupProp "__proto__" [("euphoria", str "http://x/euphoria")]).isSome = false :=
  ⟨rfl, rfl, rfl, rfl⟩

/-- C7: in every run of the pipeline in which the catalog fetch or its
validation fails, a lookup of the resolution stage fails, or an effect query
fails, `run` ends with the error of the failing stage and
`fs.writeFileSync` is never called; a run that ends with an error has
written nothing, and the file is written (once, to the target path, with
the effect map) only when every stage has succeeded. -/
theorem run_writes_only_after_success (targetPath : String) (world : Collaborators) :
    (∀ reason, world.allDrugs = .error reason →
      (run targetPath world).result = .error (.rejected reason) ∧
        writes (run targetPath world).trace = []) ∧
    (∀ e, (getAllDrugs world.allDrugs).result = .error e →
      (run targetPath world).result = .error e ∧ writes (run targetPath world).trace = []) ∧
    (∀ names n reason, (getAllDrugs world.allDrugs).result = .ok names →
      n ∈ names → world.search n = .error reason →
      ∃ e, (getPWDrugs world.search names).result = .error e ∧
        ((∃ n2 ∈ names, ∃ r2, world.search n2 = .error r2 ∧ e = .rejected r2) ∨
          ∃ message, e = .typeError message) ∧
        (run targetPath world).result = .error e ∧
        writes (run targetPath world).trace = []) ∧
    (∀ names matching n reason, (getAllDrugs world.allDrugs).result = .ok names →
      (getPWDrugs world.search names).result = .ok matching →
      n ∈ matching → world.ask (toStr n) = .error reason →
      ∃ e, (extractEffects world.ask matching).result = .error e ∧
        (run targetPath world).result = .error e ∧
        writes (run targetPath world).trace = []) ∧
    (∀ e, (run targetPath world).result = .error e →
      writes (run targetPath world).trace = []) ∧
    (∀ path value, (path, value) ∈ writes (run targetPath world).trace →
      ∃ names matching effectMap,
        (getAllDrugs world.allDrugs).result = .ok names ∧
        (getPWDrugs world.search names).result = .ok matching ∧
        (extractEffects world.ask matching).result = .ok effectMap ∧
        (run targetPath world).result = .ok () ∧
        writes (run targetPath world).trace = [(targetPath, obj effectMap)] ∧
        path = targetPath ∧ value = obj effectMap) := by
  refine ⟨?_, run_stage1_error targetPath world, ?_, ?_, ?_, ?_⟩
  · intro reason h
    apply run_stage1_error
    rw [h]
    rfl
  · intro names n reason h1 hn hfail
    have hne : names ≠ [] := by
      intro h0
      subst h0
      simp at hn
    have hflat : (chunk names 5).flatten = names := chunk_flatten names 5 (by omega)
    obtain ⟨e, he⟩ := resolveChunks_fails world.search (chunk names 5) [] n reason
      (by rw [hflat]; exact hn) hfail
    have hkind := resolveChunks_error world.search _ _ e he
    rw [hflat] at hkind
    rw [← getPWDrugs_nonempty world.search names hne] at he
    obtain ⟨hr, hw⟩ := run_stage2_error targetPath world names e h1 he
    exact ⟨e, he, hkind, hr, hw⟩
  · intro names matching n reason h1 h2 hn hfail
    obtain ⟨e, he⟩ := extractEffects_fails world.ask matching n reason hn hfail
    obtain ⟨hr, hw⟩ := run_stage3_error targetPath world names matching e h1 h2 he
    exact ⟨e, he, hr, hw⟩
  · intro e he
    rcases run_cases targetPath world with ⟨_, _, hw⟩ | ⟨_, _, _, _, _, _, hok, _⟩
    · exact hw
    · rw [hok] at he
      cases he
  · intro path value hmem
    rcases run_cases targetPath world with ⟨_, _, hw⟩ | ⟨names, matching, effectMap, h1, h2, h3, hok, hw⟩
    · rw [hw] at hmem
      simp at hmem
    · rw [hw] at hmem
      simp only [List.mem_singleton, Prod.mk.injEq] at hmem
      exact ⟨names, matching, effectMap, h1, h2, h3, hok, hw, hmem.1, hmem.2⟩

/-- C7 on the scenarios: when the lookup of "A1" is rejected the run ends
with that rejection and writes nothing; when every stage succeeds the
effect map is written to the output file. -/
theorem run_writes_only_after_success_witness :
    (∃ e, (getPWDrugs demoFailingWorld.search [str "A", str "A1", str "B"]).result = .error e ∧
      ((∃ n2 ∈ [str "A", str "A1", str "B"], ∃ r2,
          demoFailingWorld.search n2 = .error r2 ∧ e = .rejected r2) ∨
        ∃ message, e = .typeError message) ∧
      (run outputFile demoFailingWorld).result = .error e ∧
      writes (run outputFile demoFailingWorld).trace = []) ∧
    (run outputFile demoFailingWorld).result = .error (.rejected (str "ETIMEDOUT")) ∧
    (run outputFile demoWorld).result = .ok () ∧
    writes (run outputFile demoWorld).trace
      = [(outputFile, obj [("A", obj [("euphoria", str "http://x/euphoria")])])] :=
  ⟨(run_writes_only_after_success outputFile demoFailingWorld).2.2.1
      [str "A", str "A1", str "B"] (str "A1") (str "ETIMEDOUT") rfl (by simp) rfl,
    rfl, rfl, rfl⟩

end EffectCrawler
